import Mathlib

/-!
Verification of the dependency-graph task executor in
`src/server/pkg/engine/engine.go` (package `engine`).

The Go code is shallowly embedded:
* a Go `map[string]X` whose keys coincide with an `ID` field is modelled as a
  `List` of the values, iterated in list order (Go map iteration order is
  arbitrary; theorems quantify over all lists, hence over all orders, and the
  claims are order-insensitive);
* a Go `error` is modelled as a `String` carrying the formatted message;
* the opaque `any` payload of a `Result` is modelled as `Option α` (Go's `nil`
  interface value is `none`);
* goroutine nondeterminism in `Run` is modelled by an explicit `sched`
  parameter giving the order in which failing nodes deliver their errors to
  the buffered error channel (any permutation of the failure list);
* unbounded Go recursion / loops are modelled with an explicit fuel argument
  together with theorems showing the fuel bound is never reached.
-/

namespace GraphBuilder

/-- `Result` from engine.go: `ID string; Data any`.  `Data` is an opaque
payload; Go's `nil` is `none`. -/
structure Result (α : Type) where
  ID : String
  Data : Option α
deriving DecidableEq

/-- `RunFunc` from engine.go: receives the map from dependency ID to that
dependency's `Result` (modelled extensionally as a partial function) and
returns a `Result` or an error. -/
def RunFunc (α : Type) : Type := (String → Option (Result α)) → Except String (Result α)

/-- `Node` from engine.go. -/
structure Node (α : Type) where
  ID : String
  DependsOn : List String
  Run : RunFunc α

/-- The ID list of a node collection (the key set of the Go map). -/
def ids (nodes : List (Node α)) : List String := nodes.map (·.ID)

/-- Go `e.nodes[id]` / `b.catalog[id]`: lookup of a node by its ID. -/
def findNode (nodes : List (Node α)) (id : String) : Option (Node α) :=
  nodes.find? (·.ID == id)

/-- The declared dependencies of the node registered under `x`
(empty when no such node exists). -/
def depIDs (nodes : List (Node α)) (x : String) : List String :=
  match findNode nodes x with
  | some n => n.DependsOn
  | none => []

/-- Error message built by `fmt.Errorf("node %s depends on unknown node %s", ...)`. -/
def unknownMsg (nid d : String) : String :=
  "node " ++ nid ++ " depends on unknown node " ++ d

/-- Error message `"cycle detected in dependency graph"`. -/
def cycleMsg : String := "cycle detected in dependency graph"

/-- Error message built by `fmt.Errorf("node %s failed: %w", nodeID, err)`. -/
def failMsg (nid m : String) : String := "node " ++ nid ++ " failed: " ++ m

/-- Error message built by `fmt.Errorf("unknown node: %s", id)`. -/
def unknownNodeMsg (id : String) : String := "unknown node: " ++ id

/-! ## topoSortLevels (engine.go lines 228-284) -/

/-- The referential-integrity check at the top of `topoSortLevels`: the first
node (in iteration order) declaring a dependency absent from the set yields
an error. -/
def unknownDepError (nodes : List (Node α)) : Option String :=
  nodes.findSome? fun n =>
    n.DependsOn.findSome? fun d =>
      if (findNode nodes d).isSome then none else some (unknownMsg n.ID d)

/-- The in-degree map after both initialisation loops:
`inDegree[node.ID] = len(node.DependsOn)`.  (The first Go loop zeroes every
key; the second overwrites each key with the dependency count.) -/
def initInDegree (nodes : List (Node α)) : List (String × Int) :=
  nodes.map fun n => (n.ID, (n.DependsOn.length : Int))

/-- Level 0: the keys of the in-degree map whose degree is 0. -/
def initLevel (m : List (String × Int)) : List String :=
  m.filterMap fun p => if p.2 == 0 then some p.1 else none

/-- `dependents[id]`: the IDs of the nodes that list `id` among their
dependencies, one occurrence per declared occurrence, in iteration order. -/
def dependents (nodes : List (Node α)) (id : String) : List String :=
  nodes.flatMap fun n =>
    n.DependsOn.filterMap fun d => if d == id then some n.ID else none

/-- Go `inDegree[dependent]--`: decrement the entry of key `k`; a missing key
reads as 0 and the decrement stores -1 (Go map semantics).  Within
`topoSortLevels` every decremented key is a node ID, hence present. -/
def decr (m : List (String × Int)) (k : String) : List (String × Int) :=
  if m.any (·.1 == k) then m.map fun p => if p.1 == k then (p.1, p.2 - 1) else p
  else m ++ [(k, -1)]

/-- Go `inDegree[dependent]` read. -/
def lookupDeg (m : List (String × Int)) (k : String) : Int :=
  ((m.find? (·.1 == k)).map (·.2)).getD 0

/-- The inner double loop of one `topoSortLevels` iteration, flattened: apply
the decrement for each edge event in order, collecting every key whose degree
reaches exactly 0 into the next level. -/
def applyDecrs (st : List (String × Int) × List String) :
    List String → List (String × Int) × List String
  | [] => st
  | d :: ds =>
    let m := decr st.1 d
    applyDecrs (if lookupDeg m d == 0 then (m, st.2 ++ [d]) else (m, st.2)) ds

/-- The `for len(currentLevel) > 0` loop of `topoSortLevels`.  `fuel` bounds
the iteration count; `nodes.length + 1` always suffices (each iteration
places at least one previously unplaced ID). -/
def kahnLoop (nodes : List (Node α)) :
    Nat → List (String × Int) → List String → List (List String) → Nat →
    List (List String) × Nat
  | 0, _, _, levels, processed => (levels, processed)
  | fuel + 1, inDeg, current, levels, processed =>
    if current.isEmpty then (levels, processed)
    else
      let st := applyDecrs (inDeg, []) (current.flatMap (dependents nodes))
      kahnLoop nodes fuel st.1 st.2 (levels ++ [current]) (processed + current.length)

/-- `topoSortLevels` from engine.go: Kahn's algorithm producing levels. -/
def topoSortLevels (nodes : List (Node α)) : Except String (List (List String)) :=
  match unknownDepError nodes with
  | some msg => .error msg
  | none =>
    let inDeg := initInDegree nodes
    let r := kahnLoop nodes (nodes.length + 1) inDeg (initLevel inDeg) [] 0
    if r.2 == nodes.length then .ok r.1 else .error cycleMsg

/-! ## Engine and Run (engine.go lines 27-182) -/

/-- `Engine` from engine.go: the registered nodes and the collected results
(Go `map[string]Result`, modelled as an association list in insertion
order). -/
structure Engine (α : Type) where
  nodes : List (Node α)
  results : List (String × Result α)

/-- `New` from engine.go. -/
def New (registry : List (Node α)) : Engine α := ⟨registry, []⟩

/-- `Results` from engine.go: returns the collected results. -/
def Engine.Results (e : Engine α) : List (String × Result α) := e.results

/-- Kernel-reducible decidability of the String order (the default instance
goes through `String.ltb`'s well-founded recursion, which does not reduce
definitionally; this one compares the character lists). -/
instance (priority := 2000) fastStringDecLT :
    DecidableRel ((· < ·) : String → String → Prop) :=
  fun a b => decidable_of_iff (a.toList < b.toList) String.lt_iff_toList_lt.symm

/-- Kernel-reducible decidability of `≤` on String. -/
instance (priority := 2000) fastStringDecLE :
    DecidableRel ((· ≤ ·) : String → String → Prop) :=
  fun a b => @instDecidableNot _ (fastStringDecLT b a)

/-- Go `sort.Strings`: sort a string slice ascending. -/
def sortStrings (l : List String) : List String := List.insertionSort (· ≤ ·) l

/-- Go `e.results[depID]` read: a missing key yields the zero `Result`. -/
def lookupRes (results : List (String × Result α)) (d : String) : Option (Result α) :=
  (results.find? (·.1 == d)).map (·.2)

/-- The dependency-result map a node's run function receives: one entry per
declared dependency (Go fills missing results with the zero `Result`). -/
def depMap (results : List (String × Result α)) (deps : List String) :
    String → Option (Result α) :=
  fun d => if d ∈ deps then some ((lookupRes results d).getD ⟨"", none⟩) else none

/-- Go `e.results[nodeID] = result`: map insertion (overwrite or append). -/
def insertResult (m : List (String × Result α)) (k : String) (r : Result α) :
    List (String × Result α) :=
  if m.any (·.1 == k) then m.map (fun p => if p.1 == k then (k, r) else p)
  else m ++ [(k, r)]

/-- The log of run-function invocations: node ID and the dependency map it
was given (ghost data; `Run` discards it). -/
abbrev Calls (α : Type) : Type := List (String × (String → Option (Result α)))

/-- Outcome of executing one level: the updated results (successes recorded),
the failures `(nodeID, error)` in spawn order, and the invocation log.
The goroutines of a level read only results of strictly earlier levels
(their declared dependencies), which sibling writes never touch, so the
dependency maps are read from the level-start snapshot `results0`. -/
structure LevelOut (α : Type) where
  results : List (String × Result α)
  fails : List (String × String)
  calls : Calls α

/-- One goroutine of a level (the body of the loop in `Run`, lines 133-163):
look the node up, gather its dependency results from the level-start
snapshot, run it, and record either the result or the failure. -/
def levelStep (nodes : List (Node α)) (results0 : List (String × Result α))
    (st : LevelOut α) (id : String) : LevelOut α :=
  match findNode nodes id with
  | none => st
  | some node =>
    let dm := depMap results0 node.DependsOn
    match node.Run dm with
    | .error msg =>
      { st with fails := st.fails ++ [(id, msg)], calls := st.calls ++ [(id, dm)] }
    | .ok r =>
      { st with results := insertResult st.results id r, calls := st.calls ++ [(id, dm)] }

/-- Execute one level (the goroutine block of `Run`, lines 130-166).
Nodes are spawned in sorted order; every spawned node runs to completion
(the `WaitGroup` barrier). -/
def runLevelLog (nodes : List (Node α)) (results0 : List (String × Result α))
    (level : List String) : LevelOut α :=
  (sortStrings level).foldl (levelStep nodes results0) ⟨results0, [], []⟩

/-- The failure entry a node contributes to the error channel, if any. -/
def levelFail (nodes : List (Node α)) (results0 : List (String × Result α))
    (z : String) : Option (String × String) :=
  match findNode nodes z with
  | none => none
  | some node =>
    match node.Run (depMap results0 node.DependsOn) with
    | .error m => some (z, m)
    | .ok _ => none

/-- Whether a node's run function succeeds on this level's snapshot. -/
def levelOk (nodes : List (Node α)) (results0 : List (String × Result α))
    (z : String) : Bool :=
  match findNode nodes z with
  | none => false
  | some node =>
    match node.Run (depMap results0 node.DependsOn) with
    | .error _ => false
    | .ok _ => true

/-- Outcome of a whole run: final results, invocation log, and error. -/
structure RunOut (α : Type) where
  results : List (String × Result α)
  calls : Calls α
  outcome : Except String Unit

/-- A schedule: the order in which the failing goroutines of a level deliver
their errors to the buffered channel (any permutation of the failure list). -/
def Sched : Type := List (String × String) → List (String × String)

/-- The level loop of `Run` (lines 122-172): execute levels in order; after
each barrier, if the error channel is nonempty return its first element
wrapped by `fmt.Errorf("node %s failed: %w", ...)`, without starting later
levels.  (Receiving from a closed empty channel yields `nil`, i.e. success.) -/
def runLevelsLog (nodes : List (Node α)) (sched : Sched) :
    List (List String) → List (String × Result α) → RunOut α
  | [], results0 => ⟨results0, [], .ok ()⟩
  | level :: rest, results0 =>
    let lo := runLevelLog nodes results0 level
    match sched lo.fails with
    | [] =>
      let ro := runLevelsLog nodes sched rest lo.results
      ⟨ro.results, lo.calls ++ ro.calls, ro.outcome⟩
    | (id, msg) :: _ => ⟨lo.results, lo.calls, .error (failMsg id msg)⟩

/-- `Run` from engine.go, instrumented with the invocation log.  On a
planning error the engine is unchanged and nothing runs. -/
def Engine.runWithLog (e : Engine α) (sched : Sched) :
    Engine α × Calls α × Except String Unit :=
  match topoSortLevels e.nodes with
  | .error msg => (e, [], .error msg)
  | .ok levels =>
    let ro := runLevelsLog e.nodes sched levels e.results
    ({ e with results := ro.results }, ro.calls, ro.outcome)

/-- `Run` from engine.go (the log discarded). -/
def Engine.Run (e : Engine α) (sched : Sched) : Engine α × Except String Unit :=
  ((e.runWithLog sched).1, (e.runWithLog sched).2.2)

/-! ## PrettyPrint (engine.go lines 43-106)

`PrettyPrint` only prints, except for one state effect: `node := e.nodes[id]`
copies the struct but shares the `DependsOn` slice's backing array with the
stored node, so `sort.Strings(node.DependsOn)` (line 68) sorts the stored
node's dependency list in place.  The printing itself is elided; the model
returns the engine as mutated. -/

/-- `PrettyPrint`'s effect on the engine state: every registered node's
`DependsOn` slice is sorted in place (line 68 runs once per node; the sort
is guarded by `len(node.DependsOn) > 0`). -/
def Engine.PrettyPrint (e : Engine α) : Engine α :=
  { e with
    nodes := e.nodes.map fun n =>
      if n.DependsOn.length > 0 then { n with DependsOn := sortStrings n.DependsOn }
      else n }

/-! ## Builder / BuildFor (engine.go lines 184-224) -/

/-- `Builder` from engine.go. -/
structure Builder (α : Type) where
  catalog : List (Node α)

/-- `NewBuilder` from engine.go. -/
def NewBuilder (catalog : List (Node α)) : Builder α := ⟨catalog⟩

mutual
/-- The recursive closure `resolve` of `BuildFor`: collect `id` and its
transitive dependencies into `needed`.  `fuel` bounds the recursion depth
(`none` = fuel exhausted; `catalog.length + 1` always suffices, see
`resolve_total`): each descent first adds a catalog node not yet in
`needed`. -/
def resolve (catalog : List (Node α)) :
    Nat → List (Node α) → String → Option (Except String (List (Node α)))
  | 0, _, _ => none
  | fuel + 1, needed, id =>
    if (ids needed).contains id then some (.ok needed)
    else
      match findNode catalog id with
      | none => some (.error (unknownNodeMsg id))
      | some node => resolveMany catalog fuel (needed ++ [node]) node.DependsOn
termination_by fuel _ _ => (fuel, 0)

/-- Resolve each ID of a list in order, threading the accumulated `needed`
set (the dependency loop of `resolve`, and also the loop of `BuildFor` over
its targets). -/
def resolveMany (catalog : List (Node α)) :
    Nat → List (Node α) → List String → Option (Except String (List (Node α)))
  | _, needed, [] => some (.ok needed)
  | fuel, needed, d :: ds =>
    match resolve catalog fuel needed d with
    | none => none
    | some (.error e) => some (.error e)
    | some (.ok needed2) => resolveMany catalog fuel needed2 ds
termination_by fuel _ ds => (fuel, ds.length + 1)
end

/-- `BuildFor` from engine.go: the targets plus all transitive dependencies,
or an unknown-node error.  The fuel bound is never reached
(`buildFor_total`). -/
def Builder.BuildFor (b : Builder α) (targetNodeIDs : List String) :
    Except String (Engine α) :=
  match resolveMany b.catalog (b.catalog.length + 1) [] targetNodeIDs with
  | none => .error "unreachable: resolution fuel exhausted"
  | some (.error e) => .error e
  | some (.ok needed) => .ok (New needed)

/-! ## Cycles (property language)

`DepPath nodes x y k`: from `x` one reaches `y` by following exactly `k ≥ 1`
declared-dependency edges.  `hasCycle` decides whether some node reaches
itself — any dependency cycle contains a member that reaches itself in at
most `nodes.length` steps, so the bounded search is exact. -/

/-- All IDs reachable from `x` along 1 to `fuel` dependency edges. -/
def reachPos (nodes : List (Node α)) : Nat → String → List String
  | 0, _ => []
  | fuel + 1, x =>
    let ds := depIDs nodes x
    ds ++ ds.flatMap (reachPos nodes fuel)

/-- Decidable cycle test: some registered node reaches itself. -/
def hasCycle (nodes : List (Node α)) : Bool :=
  nodes.any fun n => (reachPos nodes nodes.length n.ID).contains n.ID

/-- Dependency paths of positive length. -/
inductive DepPath (nodes : List (Node α)) : String → String → Nat → Prop
  | single {x y : String} : y ∈ depIDs nodes x → DepPath nodes x y 1
  | cons {x y z : String} {k : Nat} :
      y ∈ depIDs nodes x → DepPath nodes y z k → DepPath nodes x z (k + 1)

/-! ## Referenced closure (property language for `BuildFor`)

`Refd catalog targets x`: `x` is one of the targets, or is declared as a
dependency by some catalog node already in the closure.  This is exactly the
set of IDs `BuildFor`'s traversal looks up in the catalog. -/

inductive Refd (catalog : List (Node α)) (targets : List String) : String → Prop
  | target {x : String} : x ∈ targets → Refd catalog targets x
  | dep {x d : String} {n : Node α} :
      Refd catalog targets x → findNode catalog x = some n → d ∈ n.DependsOn →
      Refd catalog targets d

/-- A run function that always succeeds, producing `Result{ID: s}` (used in
concrete test graphs). -/
def wOk (s : String) : RunFunc Nat := fun _ => .ok ⟨s, none⟩

/-- A run function that always fails with message `s` (used in concrete test
graphs). -/
def wErr (s : String) : RunFunc Nat := fun _ => .error s

/-- Fuel measure: catalog IDs not yet collected. -/
def unresolvedCount (catalog needed : List (Node α)) : Nat :=
  ((ids catalog).toFinset \ (ids needed).toFinset).card

/-- Diamond catalog for the C5 witness: d ← c ← {a, b}. -/
def cat5 : List (Node Nat) :=
  [⟨"d", ["c"], wOk "d"⟩, ⟨"c", ["a", "b"], wOk "c"⟩, ⟨"a", [], wOk "a"⟩, ⟨"b", [], wOk "b"⟩]

/-- Two-node dependency cycle used as the C6 witness. -/
def cyc2 : List (Node Nat) := [⟨"a", ["b"], wOk "a"⟩, ⟨"b", ["a"], wOk "b"⟩]

/-- Test graph for the C3 witness: a fails at level 0, b succeeds,
z depends on a and sits at level 1. -/
def catC3 : List (Node Nat) :=
  [⟨"a", [], wErr "boom"⟩, ⟨"b", [], wOk "b"⟩, ⟨"z", ["a"], wOk "z"⟩]

/-- Test graph for the C4 witness: two failing root nodes in one level. -/
def catC4 : List (Node Nat) := [⟨"a", [], wErr "A"⟩, ⟨"b", [], wErr "B"⟩]

/-- Loop invariant of `kahnLoop`, at the loop head: `levels` are the fully
processed levels (their outgoing decrements applied), `current` is placed but
not yet processed, `inDeg` counts for each node its dependency occurrences
not yet placed in `levels`. -/
structure KahnInv (nodes : List (Node α)) (inDeg : List (String × Int))
    (current : List String) (levels : List (List String)) : Prop where
  keys : inDeg.map (·.1) = ids nodes
  nodupPlaced : (levels.flatten ++ current).Nodup
  placedSub : ∀ x ∈ levels.flatten ++ current, x ∈ ids nodes
  degCount : ∀ x, lookupDeg inDeg x =
    ((depIDs nodes x).countP (fun d => decide (d ∉ levels.flatten)) : Int)
  currentIff : ∀ x, x ∈ current ↔
    (x ∈ ids nodes ∧ x ∉ levels.flatten ∧ lookupDeg inDeg x = 0)
  levelDeps : ∀ i (h : i < levels.length), ∀ x ∈ levels[i],
    ∀ d ∈ depIDs nodes x, d ∈ (levels.take i).flatten
  currentDeps : ∀ x ∈ current, ∀ d ∈ depIDs nodes x, d ∈ levels.flatten

/-- Properties of the level list when the `kahnLoop` exits. -/
structure KahnFinal (nodes : List (Node α)) (levelsF : List (List String)) : Prop where
  nodup : levelsF.flatten.Nodup
  sub : ∀ x ∈ levelsF.flatten, x ∈ ids nodes
  levelDeps : ∀ i (h : i < levelsF.length), ∀ x ∈ levelsF[i],
    ∀ d ∈ depIDs nodes x, d ∈ (levelsF.take i).flatten
  unplaced : ∀ x ∈ ids nodes, x ∉ levelsF.flatten →
    ∃ d ∈ depIDs nodes x, d ∉ levelsF.flatten

/-! # Supporting lemmas and claims -/
theorem findNode_eq_some {nodes : List (Node α)} {id : String} {n : Node α}
    (h : findNode nodes id = some n) : n ∈ nodes ∧ n.ID = id := by
  refine ⟨List.mem_of_find?_eq_some h, ?_⟩
  have := List.find?_some h
  simpa using this

theorem ids_append (l1 l2 : List (Node α)) : ids (l1 ++ l2) = ids l1 ++ ids l2 := by
  simp [ids]

theorem mem_ids {nodes : List (Node α)} {x : String} :
    x ∈ ids nodes ↔ ∃ n ∈ nodes, n.ID = x := by
  simp [ids, eq_comm]

theorem findNode_none {nodes : List (Node α)} {id : String}
    (h : findNode nodes id = none) : id ∉ ids nodes := by
  intro hm
  obtain ⟨n, hn, hid⟩ := mem_ids.1 hm
  have := List.find?_eq_none.1 h n hn
  simp [hid] at this

theorem resolve_shape (catalog : List (Node α)) :
    ∀ fuel,
      (∀ needed id out, resolve catalog fuel needed id = some (.ok out) →
        ∃ ext, out = needed ++ ext)
      ∧ (∀ needed ds out, resolveMany catalog fuel needed ds = some (.ok out) →
        ∃ ext, out = needed ++ ext) := by
  intro fuel
  induction fuel with
  | zero =>
    constructor
    · intro needed id out h
      rw [resolve] at h
      exact absurd h (by simp)
    · intro needed ds out h
      cases ds with
      | nil =>
        rw [resolveMany] at h
        exact ⟨[], by simpa using h.symm⟩
      | cons d ds =>
        rw [resolveMany, resolve] at h
        exact absurd h (by simp)
  | succ f ih =>
    have hres : ∀ needed id out, resolve catalog (f + 1) needed id = some (.ok out) →
        ∃ ext, out = needed ++ ext := by
      intro needed id out h
      rw [resolve] at h
      by_cases hv : id ∈ ids needed
      · simp [hv] at h
        exact ⟨[], by simp [h]⟩
      · simp [hv] at h
        cases hf : findNode catalog id with
        | none => simp [hf] at h
        | some node =>
          rw [hf] at h
          obtain ⟨ext, hext⟩ := ih.2 _ _ _ h
          exact ⟨node :: ext, by simp [hext]⟩
    refine ⟨hres, ?_⟩
    intro needed ds
    induction ds generalizing needed with
    | nil =>
      intro out h
      rw [resolveMany] at h
      exact ⟨[], by simpa using h.symm⟩
    | cons d ds ihds =>
      intro out h
      rw [resolveMany] at h
      cases hr : resolve catalog (f + 1) needed d with
      | none => simp [hr] at h
      | some r =>
        cases r with
        | error e => simp [hr] at h
        | ok needed2 =>
          simp [hr] at h
          obtain ⟨ext1, h1⟩ := hres _ _ _ hr
          obtain ⟨ext2, h2⟩ := ihds _ _ h
          exact ⟨ext1 ++ ext2, by simp [h2, h1]⟩

theorem ids_subset_of_shape {needed out : List (Node α)} (h : ∃ ext, out = needed ++ ext) :
    ∀ x ∈ ids needed, x ∈ ids out := by
  obtain ⟨ext, rfl⟩ := h
  intro x hx
  simp [ids_append, hx]

/-- Provenance, membership and uniqueness of the resolved set. -/
theorem resolve_spec (catalog : List (Node α)) :
    ∀ fuel,
      (∀ needed id out, resolve catalog fuel needed id = some (.ok out) →
        id ∈ ids out
        ∧ (∀ nd ∈ out, nd ∈ needed ∨
            (findNode catalog nd.ID = some nd ∧ ∀ d ∈ nd.DependsOn, d ∈ ids out))
        ∧ ((ids needed).Nodup → (ids out).Nodup))
      ∧ (∀ needed ds out, resolveMany catalog fuel needed ds = some (.ok out) →
        (∀ d ∈ ds, d ∈ ids out)
        ∧ (∀ nd ∈ out, nd ∈ needed ∨
            (findNode catalog nd.ID = some nd ∧ ∀ d ∈ nd.DependsOn, d ∈ ids out))
        ∧ ((ids needed).Nodup → (ids out).Nodup)) := by
  intro fuel
  induction fuel with
  | zero =>
    constructor
    · intro needed id out h
      rw [resolve] at h
      exact absurd h (by simp)
    · intro needed ds out h
      cases ds with
      | nil =>
        rw [resolveMany] at h
        simp at h
        subst h
        exact ⟨by simp, fun nd hnd => Or.inl hnd, fun h => h⟩
      | cons d ds =>
        rw [resolveMany, resolve] at h
        exact absurd h (by simp)
  | succ f ih =>
    have hres : ∀ needed id out, resolve catalog (f + 1) needed id = some (.ok out) →
        id ∈ ids out
        ∧ (∀ nd ∈ out, nd ∈ needed ∨
            (findNode catalog nd.ID = some nd ∧ ∀ d ∈ nd.DependsOn, d ∈ ids out))
        ∧ ((ids needed).Nodup → (ids out).Nodup) := by
      intro needed id out h
      rw [resolve] at h
      by_cases hv : id ∈ ids needed
      · simp [hv] at h
        subst h
        exact ⟨hv, fun nd hnd => Or.inl hnd, fun h => h⟩
      · simp [hv] at h
        cases hf : findNode catalog id with
        | none => simp [hf] at h
        | some node =>
          rw [hf] at h
          obtain ⟨hdeps, hprov, hnodup⟩ := ih.2 _ _ _ h
          obtain ⟨hmem, hid⟩ := findNode_eq_some hf
          have hsub : ∀ x ∈ ids (needed ++ [node]), x ∈ ids out :=
            ids_subset_of_shape ((resolve_shape catalog f).2 _ _ _ h)
          have hnodemem : id ∈ ids out := by
            apply hsub
            simp [ids_append, ids, hid]
          refine ⟨hnodemem, ?_, ?_⟩
          · intro nd hnd
            rcases hprov nd hnd with hin | hgood
            · rcases List.mem_append.1 hin with hin1 | hin2
              · exact Or.inl hin1
              · right
                have : nd = node := by simpa using hin2
                subst this
                rw [hid, hf]
                exact ⟨rfl, hdeps⟩
            · exact Or.inr hgood
          · intro hnodupneed
            apply hnodup
            rw [ids_append]
            simp only [ids, List.map_cons, List.map_nil]
            rw [hid, List.nodup_append]
            refine ⟨hnodupneed, List.nodup_singleton _, ?_⟩
            intro a ha hmem
            rw [List.mem_singleton] at hmem
            subst hmem
            exact hv ha
    refine ⟨hres, ?_⟩
    intro needed ds
    induction ds generalizing needed with
    | nil =>
      intro out h
      rw [resolveMany] at h
      simp at h
      subst h
      exact ⟨by simp, fun nd hnd => Or.inl hnd, fun h => h⟩
    | cons d ds ihds =>
      intro out h
      rw [resolveMany] at h
      cases hr : resolve catalog (f + 1) needed d with
      | none => simp [hr] at h
      | some r =>
        cases r with
        | error e => simp [hr] at h
        | ok needed2 =>
          simp [hr] at h
          obtain ⟨hd2, hprov2, hnd2⟩ := hres _ _ _ hr
          obtain ⟨hds, hprov, hnodup⟩ := ihds _ _ h
          have hsub : ∀ x ∈ ids needed2, x ∈ ids out :=
            ids_subset_of_shape ((resolve_shape catalog (f + 1)).2 _ _ _ h)
          refine ⟨?_, ?_, fun hn => hnodup (hnd2 hn)⟩
          · intro x hx
            rcases List.mem_cons.1 hx with rfl | hx'
            · exact hsub _ hd2
            · exact hds _ hx'
          · intro nd hnd
            rcases hprov nd hnd with hin2 | hgood
            · rcases hprov2 nd hin2 with hin | ⟨hfind, hdeps⟩
              · exact Or.inl hin
              · exact Or.inr ⟨hfind, fun dd hdd => hsub _ (hdeps dd hdd)⟩
            · exact Or.inr hgood

/-- Everything the resolver collects satisfies any property that holds of the
start IDs and is closed under declared dependencies of catalog nodes. -/
theorem resolve_sound (catalog : List (Node α)) (R : String → Prop)
    (hR : ∀ x nd d, R x → findNode catalog x = some nd → d ∈ nd.DependsOn → R d) :
    ∀ fuel,
      (∀ needed id out, R id → (∀ nd ∈ needed, R nd.ID) →
        resolve catalog fuel needed id = some (.ok out) → ∀ nd ∈ out, R nd.ID)
      ∧ (∀ needed ds out, (∀ d ∈ ds, R d) → (∀ nd ∈ needed, R nd.ID) →
        resolveMany catalog fuel needed ds = some (.ok out) → ∀ nd ∈ out, R nd.ID) := by
  intro fuel
  induction fuel with
  | zero =>
    constructor
    · intro needed id out _ _ h
      rw [resolve] at h
      exact absurd h (by simp)
    · intro needed ds out _ hneed h
      cases ds with
      | nil =>
        rw [resolveMany] at h
        simp at h
        subst h
        exact hneed
      | cons d ds =>
        rw [resolveMany, resolve] at h
        exact absurd h (by simp)
  | succ f ih =>
    have hres : ∀ needed id out, R id → (∀ nd ∈ needed, R nd.ID) →
        resolve catalog (f + 1) needed id = some (.ok out) → ∀ nd ∈ out, R nd.ID := by
      intro needed id out hid hneed h
      rw [resolve] at h
      by_cases hv : id ∈ ids needed
      · simp [hv] at h
        subst h
        exact hneed
      · simp [hv] at h
        cases hf : findNode catalog id with
        | none => simp [hf] at h
        | some node =>
          rw [hf] at h
          have hnid : node.ID = id := (findNode_eq_some hf).2
          refine ih.2 _ _ _ ?_ ?_ h
          · intro d hd
            exact hR id node d hid hf hd
          · intro nd hnd
            rcases List.mem_append.1 hnd with h1 | h2
            · exact hneed nd h1
            · have : nd = node := by simpa using h2
              subst this
              rw [hnid]
              exact hid
    refine ⟨hres, ?_⟩
    intro needed ds
    induction ds generalizing needed with
    | nil =>
      intro out _ hneed h
      rw [resolveMany] at h
      simp at h
      subst h
      exact hneed
    | cons d ds ihds =>
      intro out hds hneed h
      rw [resolveMany] at h
      cases hr : resolve catalog (f + 1) needed d with
      | none => simp [hr] at h
      | some r =>
        cases r with
        | error e => simp [hr] at h
        | ok needed2 =>
          simp [hr] at h
          have hneed2 : ∀ nd ∈ needed2, R nd.ID :=
            hres _ _ _ (hds d (by simp)) hneed hr
          exact ihds _ _ (fun x hx => hds x (List.mem_cons_of_mem d hx)) hneed2 h

/-- A resolution error is always an unknown-node error, for an ID that is
reachable (satisfies any dependency-closed property of the start IDs) and is
absent from the catalog. -/
theorem resolve_error_spec (catalog : List (Node α)) (R : String → Prop)
    (hR : ∀ x nd d, R x → findNode catalog x = some nd → d ∈ nd.DependsOn → R d) :
    ∀ fuel,
      (∀ needed id m, R id → (∀ nd ∈ needed, R nd.ID) →
        resolve catalog fuel needed id = some (.error m) →
        ∃ x, R x ∧ m = unknownNodeMsg x ∧ findNode catalog x = none)
      ∧ (∀ needed ds m, (∀ d ∈ ds, R d) → (∀ nd ∈ needed, R nd.ID) →
        resolveMany catalog fuel needed ds = some (.error m) →
        ∃ x, R x ∧ m = unknownNodeMsg x ∧ findNode catalog x = none) := by
  intro fuel
  induction fuel with
  | zero =>
    constructor
    · intro needed id m _ _ h
      rw [resolve] at h
      exact absurd h (by simp)
    · intro needed ds m _ _ h
      cases ds with
      | nil =>
        rw [resolveMany] at h
        exact absurd h (by simp)
      | cons d ds =>
        rw [resolveMany, resolve] at h
        exact absurd h (by simp)
  | succ f ih =>
    have hres : ∀ needed id m, R id → (∀ nd ∈ needed, R nd.ID) →
        resolve catalog (f + 1) needed id = some (.error m) →
        ∃ x, R x ∧ m = unknownNodeMsg x ∧ findNode catalog x = none := by
      intro needed id m hid hneed h
      rw [resolve] at h
      by_cases hv : id ∈ ids needed
      · simp [hv] at h
      · simp [hv] at h
        cases hf : findNode catalog id with
        | none =>
          rw [hf] at h
          simp at h
          exact ⟨id, hid, h.symm, hf⟩
        | some node =>
          rw [hf] at h
          have hnid : node.ID = id := (findNode_eq_some hf).2
          refine ih.2 _ _ _ ?_ ?_ h
          · intro d hd
            exact hR id node d hid hf hd
          · intro nd hnd
            rcases List.mem_append.1 hnd with h1 | h2
            · exact hneed nd h1
            · have : nd = node := by simpa using h2
              subst this
              rw [hnid]
              exact hid
    refine ⟨hres, ?_⟩
    intro needed ds
    induction ds generalizing needed with
    | nil =>
      intro m _ _ h
      rw [resolveMany] at h
      exact absurd h (by simp)
    | cons d ds ihds =>
      intro m hds hneed h
      rw [resolveMany] at h
      cases hr : resolve catalog (f + 1) needed d with
      | none => simp [hr] at h
      | some r =>
        cases r with
        | error e =>
          simp [hr] at h
          subst h
          exact hres _ _ _ (hds d (by simp)) hneed hr
        | ok needed2 =>
          simp [hr] at h
          have hneed2 : ∀ nd ∈ needed2, R nd.ID :=
            (resolve_sound catalog R hR (f + 1)).1 _ _ _ (hds d (by simp)) hneed hr
          exact ihds _ _ (fun x hx => hds x (List.mem_cons_of_mem d hx)) hneed2 h

theorem unresolvedCount_mono (catalog : List (Node α)) {needed out : List (Node α)}
    (h : ∃ ext, out = needed ++ ext) :
    unresolvedCount catalog out ≤ unresolvedCount catalog needed := by
  apply Finset.card_le_card
  intro x hx
  rw [Finset.mem_sdiff] at hx ⊢
  refine ⟨hx.1, fun hm => hx.2 ?_⟩
  rw [List.mem_toFinset] at hm ⊢
  exact ids_subset_of_shape h x hm

theorem unresolvedCount_strict (catalog : List (Node α))
    {needed : List (Node α)} {node : Node α} {id : String}
    (hmem : node ∈ catalog) (hnid : node.ID = id) (hv : id ∉ ids needed) :
    unresolvedCount catalog (needed ++ [node]) < unresolvedCount catalog needed := by
  have hBsub : (ids needed).toFinset ⊆ (ids (needed ++ [node])).toFinset := by
    intro x hx
    rw [List.mem_toFinset] at hx ⊢
    rw [ids_append]
    exact List.mem_append_left _ hx
  have hsub := Finset.sdiff_subset_sdiff (Finset.Subset.refl (ids catalog).toFinset) hBsub
  apply Finset.card_lt_card
  rw [Finset.ssubset_iff_of_subset hsub]
  refine ⟨id, ?_, ?_⟩
  · rw [Finset.mem_sdiff, List.mem_toFinset, List.mem_toFinset]
    exact ⟨mem_ids.2 ⟨node, hmem, hnid⟩, hv⟩
  · intro hc
    rw [Finset.mem_sdiff, List.mem_toFinset, List.mem_toFinset] at hc
    apply hc.2
    rw [ids_append]
    apply List.mem_append_right
    simp [ids, hnid]

/-- The resolver's fuel is never exhausted once it exceeds the number of
catalog IDs not yet collected: each descent first collects a fresh catalog
node. -/
theorem resolve_total (catalog : List (Node α)) :
    ∀ fuel,
      (∀ needed id, unresolvedCount catalog needed < fuel →
        resolve catalog fuel needed id ≠ none)
      ∧ (∀ needed ds, unresolvedCount catalog needed < fuel →
        resolveMany catalog fuel needed ds ≠ none) := by
  intro fuel
  induction fuel with
  | zero =>
    exact ⟨fun _ _ h => absurd h (by omega), fun _ _ h => absurd h (by omega)⟩
  | succ f ih =>
    have hres : ∀ needed id, unresolvedCount catalog needed < f + 1 →
        resolve catalog (f + 1) needed id ≠ none := by
      intro needed id hfuel
      rw [resolve]
      by_cases hv : id ∈ ids needed
      · simp [hv]
      · simp [hv]
        cases hf : findNode catalog id with
        | none => simp
        | some node =>
          simp
          obtain ⟨hmem, hnid⟩ := findNode_eq_some hf
          have hlt := unresolvedCount_strict catalog hmem hnid hv
          exact ih.2 _ _ (by omega)
    refine ⟨hres, ?_⟩
    intro needed ds
    induction ds generalizing needed with
    | nil =>
      intro _
      rw [resolveMany]
      simp
    | cons d ds ihds =>
      intro hfuel
      rw [resolveMany]
      cases hr : resolve catalog (f + 1) needed d with
      | none => exact absurd hr (hres _ _ hfuel)
      | some r =>
        cases r with
        | error e => simp
        | ok needed2 =>
          simp
          have hle := unresolvedCount_mono catalog ((resolve_shape catalog (f + 1)).1 _ _ _ hr)
          exact ihds _ (by omega)

theorem unresolvedCount_nil_lt (catalog : List (Node α)) :
    unresolvedCount catalog [] < catalog.length + 1 := by
  unfold unresolvedCount
  have h1 : ((ids catalog).toFinset \ (ids ([] : List (Node α))).toFinset).card
      ≤ (ids catalog).toFinset.card := Finset.card_le_card (Finset.sdiff_subset)
  have h2 : (ids catalog).toFinset.card ≤ (ids catalog).length := List.toFinset_card_le _
  have h3 : (ids catalog).length = catalog.length := List.length_map _ _
  omega

/-- C9: for every catalog, cyclic ones included, the depth-first resolution
completes within recursion depth `catalog.length + 1`: the visited-set check
lets each descent collect a fresh catalog node, so the modelled fuel bound is
never exhausted and `BuildFor` just repackages the resolution result. -/
theorem C9_resolution_terminates (catalog : List (Node α)) (targets : List String) :
    ∃ r, resolveMany catalog (catalog.length + 1) [] targets = some r
      ∧ (NewBuilder catalog).BuildFor targets =
          (match r with
           | .error e => .error e
           | .ok needed => .ok (New needed)) := by
  rcases hr : resolveMany catalog (catalog.length + 1) [] targets with _ | r
  · exact absurd hr ((resolve_total catalog _).2 _ _ (unresolvedCount_nil_lt catalog))
  · refine ⟨r, rfl, ?_⟩
    unfold Builder.BuildFor NewBuilder
    dsimp only
    rw [hr]
    cases r <;> rfl

/-- C5: with a duplicate-free catalog and a non-empty target list, `BuildFor`
returns an engine whose ID set is exactly the referenced closure of the
targets (each ID exactly once) when every referenced ID is present, and an
unknown-node error naming an absent ID when some referenced ID is absent. -/
theorem C5_buildFor_closure (catalog : List (Node α)) (targets : List String)
    (hND : (ids catalog).Nodup) (hne : targets ≠ []) :
    ((∀ x, Refd catalog targets x → x ∈ ids catalog) →
      ∃ eng, (NewBuilder catalog).BuildFor targets = .ok eng
        ∧ (∀ x, x ∈ ids eng.nodes ↔ Refd catalog targets x)
        ∧ (ids eng.nodes).Nodup)
    ∧ ((∃ x, Refd catalog targets x ∧ x ∉ ids catalog) →
      ∃ y, (NewBuilder catalog).BuildFor targets = .error (unknownNodeMsg y)
        ∧ y ∉ ids catalog) := by
  have hRclosed : ∀ x nd d, Refd catalog targets x → findNode catalog x = some nd →
      d ∈ nd.DependsOn → Refd catalog targets d :=
    fun _ _ _ hx hf hd => Refd.dep hx hf hd
  rcases hr : resolveMany catalog (catalog.length + 1) [] targets with _ | r
  · exact absurd hr ((resolve_total catalog _).2 _ _ (unresolvedCount_nil_lt catalog))
  · cases r with
    | error m =>
      obtain ⟨x, hRx, hmeq, hfn⟩ :=
        (resolve_error_spec catalog (Refd catalog targets) hRclosed _).2 [] targets m
          (fun d hd => Refd.target hd) (by simp) hr
      have hnotin := findNode_none hfn
      constructor
      · intro hall
        exact absurd (hall x hRx) hnotin
      · intro _
        refine ⟨x, ?_, hnotin⟩
        unfold Builder.BuildFor NewBuilder
        dsimp only
        rw [hr, hmeq]
    | ok needed =>
      obtain ⟨hmemtg, hprov, hnodup⟩ := (resolve_spec catalog _).2 [] targets needed hr
      have hsound := (resolve_sound catalog (Refd catalog targets) hRclosed _).2 [] targets
        needed (fun d hd => Refd.target hd) (by simp) hr
      have hcompl : ∀ x, Refd catalog targets x → x ∈ ids needed := by
        intro x hx
        induction hx with
        | target h => exact hmemtg _ h
        | @dep x d n hx2 hf hd ih =>
          obtain ⟨nd, hndmem, hndid⟩ := mem_ids.1 ih
          rcases hprov nd hndmem with hin | ⟨hfind, hdeps⟩
          · simp at hin
          · rw [hndid, hf] at hfind
            have heq : n = nd := by injection hfind
            subst heq
            exact hdeps _ hd
      have hOk : (NewBuilder catalog).BuildFor targets = .ok (New needed) := by
        unfold Builder.BuildFor NewBuilder
        dsimp only
        rw [hr]
      constructor
      · intro _
        refine ⟨New needed, hOk, ?_, hnodup (by simp [ids])⟩
        intro x
        constructor
        · intro hx
          obtain ⟨nd, hnd, hid⟩ := mem_ids.1 hx
          exact hid ▸ hsound nd hnd
        · exact hcompl x
      · rintro ⟨x, hRx, hxnot⟩
        exfalso
        obtain ⟨nd, hnd, hid⟩ := mem_ids.1 (hcompl x hRx)
        rcases hprov nd hnd with hin | ⟨hfind, _⟩
        · simp at hin
        · apply hxnot
          obtain ⟨hmem2, _⟩ := findNode_eq_some hfind
          exact mem_ids.2 ⟨nd, hmem2, hid⟩

/-- C8 amended: `Run` and `BuildFor` leave node definitions unchanged
(`BuildFor`'s engine holds catalog nodes as registered), and `PrettyPrint`
preserves every node's ID, run function and dependency multiset — but it
sorts each node's `DependsOn` in place, so the declaration order may change. -/
theorem C8_amended (e : Engine α) (sched : Sched)
    (catalog : List (Node α)) (targets : List String) :
    (e.Run sched).1.nodes = e.nodes
    ∧ (∀ eng, (NewBuilder catalog).BuildFor targets = .ok eng → ∀ n ∈ eng.nodes, n ∈ catalog)
    ∧ e.PrettyPrint.nodes.map (·.ID) = e.nodes.map (·.ID)
    ∧ e.PrettyPrint.nodes.map (·.Run) = e.nodes.map (·.Run)
    ∧ ∀ i (h2 : i < e.PrettyPrint.nodes.length) (h1 : i < e.nodes.length),
        (e.PrettyPrint.nodes[i].DependsOn).Perm (e.nodes[i].DependsOn)
        ∧ List.Sorted (· ≤ ·) (e.PrettyPrint.nodes[i].DependsOn) := by
  refine ⟨?_, ?_, ?_, ?_, ?_⟩
  · unfold Engine.Run Engine.runWithLog
    cases h : topoSortLevels e.nodes <;> simp [h]
  · intro eng heq n hn
    unfold Builder.BuildFor NewBuilder at heq
    dsimp only at heq
    rcases hr : resolveMany catalog (catalog.length + 1) [] targets with _ | r
    · rw [hr] at heq
      simp at heq
    · cases r with
      | error m =>
        rw [hr] at heq
        simp at heq
      | ok needed =>
        rw [hr] at heq
        have heng : eng = New needed := by
          injection heq with h
          exact h.symm
        subst heng
        have hprov := ((resolve_spec catalog _).2 [] targets needed hr).2.1
        rcases hprov n hn with hin | ⟨hfind, _⟩
        · simp at hin
        · exact (findNode_eq_some hfind).1
  · unfold Engine.PrettyPrint
    rw [List.map_map]
    apply List.map_congr_left
    intro n _
    dsimp [Function.comp]
    split <;> rfl
  · unfold Engine.PrettyPrint
    rw [List.map_map]
    apply List.map_congr_left
    intro n _
    dsimp [Function.comp]
    split <;> rfl
  · intro i h2 h1
    unfold Engine.PrettyPrint
    simp only [Engine.PrettyPrint, List.getElem_map]
    split
    · exact ⟨List.perm_insertionSort _ _, List.sorted_insertionSort _ _⟩
    · rename_i hlen
      have h0 : (e.nodes[i]).DependsOn.length = 0 := by omega
      have hnil := List.eq_nil_of_length_eq_zero h0
      refine ⟨List.Perm.refl _, ?_⟩
      rw [hnil]
      exact List.sorted_nil

/-- The referenced closure stays inside the catalog when the targets and all
declared dependencies of catalog nodes do. -/
theorem refd_subset {α} (catalog : List (Node α)) (targets : List String)
    (htg : ∀ t ∈ targets, t ∈ ids catalog)
    (hcl : ∀ n ∈ catalog, ∀ d ∈ n.DependsOn, d ∈ ids catalog) :
    ∀ x, Refd catalog targets x → x ∈ ids catalog := by
  intro x hx
  induction hx with
  | target h => exact htg _ h
  | @dep x d n _ hf hd _ => exact hcl n (findNode_eq_some hf).1 d hd

/-- Witness for C5: resolving "d" in the diamond catalog succeeds with the
closure, and resolving the absent "q" yields an unknown-node error. -/
theorem C5_witness :
    (∃ eng, (NewBuilder cat5).BuildFor ["d"] = .ok eng
      ∧ (∀ x, x ∈ ids eng.nodes ↔ Refd cat5 ["d"] x)
      ∧ (ids eng.nodes).Nodup)
    ∧ (∃ y, (NewBuilder cat5).BuildFor ["q"] = .error (unknownNodeMsg y)
      ∧ y ∉ ids cat5) := by
  constructor
  · exact (C5_buildFor_closure cat5 ["d"] (by decide) (by decide)).1
      (refd_subset cat5 ["d"] (by decide) (by decide))
  · exact (C5_buildFor_closure cat5 ["q"] (by decide) (by decide)).2
      ⟨"q", Refd.target (by decide), by decide⟩


/-- C7: if planning fails (unknown dependency or cycle), `Run` returns that
planning error immediately: the invocation log is empty (no run function is
called) and the engine — in particular its results map — is unchanged. -/
theorem C7_run_returns_planning_error {α} (e : Engine α) (sched : Sched) (msg : String)
    (h : topoSortLevels e.nodes = .error msg) :
    e.runWithLog sched = (e, [], .error msg) := by
  unfold Engine.runWithLog
  rw [h]

/-- Witness for C7 at a node whose dependency is absent from the set. -/
theorem C7_witness :
    topoSortLevels (New [⟨"a", ["zzz"], wOk "a"⟩] : Engine Nat).nodes
      = .error (unknownMsg "a" "zzz")
    ∧ (New [⟨"a", ["zzz"], wOk "a"⟩]).runWithLog id
        = (New [⟨"a", ["zzz"], wOk "a"⟩], [], .error (unknownMsg "a" "zzz")) :=
  ⟨rfl, C7_run_returns_planning_error _ id _ rfl⟩

/-- C10: `BuildFor` with zero targets returns, without error, an engine over
the empty node set; planning the empty set yields zero levels and no cycle
error; `Run` on it succeeds and `Results` is empty. -/
theorem C10_empty_build_and_run {α} (catalog : List (Node α)) (sched : Sched) :
    (NewBuilder catalog).BuildFor [] = .ok (New [])
    ∧ topoSortLevels ([] : List (Node α)) = .ok []
    ∧ (New ([] : List (Node α))).Run sched = (New [], .ok ())
    ∧ (New ([] : List (Node α))).Results = [] := by
  refine ⟨?_, rfl, rfl, rfl⟩
  unfold Builder.BuildFor
  rw [resolveMany]

/-- C8 fails on the code: `PrettyPrint` executes `sort.Strings(node.DependsOn)`
on a struct copy whose slice header shares the stored node's backing array,
sorting the registered node's dependency list in place.  Here a node
registered with `DependsOn = ["b", "a"]` has `DependsOn = ["a", "b"]` after
`PrettyPrint`. -/
theorem C8_counterexample :
    ((New [⟨"a", ["b", "a"], wOk "a"⟩] : Engine Nat).PrettyPrint).nodes.map (·.DependsOn)
      = [["a", "b"]]
    ∧ (New [⟨"a", ["b", "a"], wOk "a"⟩] : Engine Nat).nodes.map (·.DependsOn)
      = [["b", "a"]]
    ∧ (["a", "b"] : List String) ≠ ["b", "a"] :=
  ⟨rfl, rfl, by decide⟩

/-- C4 fails on the code: `Run` returns the first error that reaches the
buffered channel, which depends on goroutine completion order, not on node
IDs.  With two failing siblings "a" and "b", the completion order "b" first
yields the error tagged "b", although "a" is lexicographically lower and also
failed; the spawn order schedule yields the error tagged "a". -/
theorem C4_counterexample :
    ((New [⟨"a", [], wErr "A"⟩, ⟨"b", [], wErr "B"⟩] : Engine Nat).Run List.reverse).2
      = .error (failMsg "b" "B")
    ∧ ((New [⟨"a", [], wErr "A"⟩, ⟨"b", [], wErr "B"⟩] : Engine Nat).Run id).2
      = .error (failMsg "a" "A")
    ∧ failMsg "b" "B" ≠ failMsg "a" "A" :=
  ⟨rfl, rfl, by decide⟩

theorem lookupDeg_eq_zero_of_not_mem {m : List (String × Int)} {x : String}
    (hx : x ∉ m.map (·.1)) : lookupDeg m x = 0 := by
  unfold lookupDeg
  have : m.find? (·.1 == x) = none := by
    rw [List.find?_eq_none]
    intro p hp hbeq
    exact hx (List.mem_map.2 ⟨p, hp, by simpa using hbeq⟩)
  rw [this]
  rfl

theorem mem_keys_of_lookupDeg_ne_zero {m : List (String × Int)} {x : String}
    (h : lookupDeg m x ≠ 0) : x ∈ m.map (·.1) := by
  by_contra hx
  exact h (lookupDeg_eq_zero_of_not_mem hx)

theorem any_key_of_mem {m : List (String × Int)} {k : String} (hk : k ∈ m.map (·.1)) :
    m.any (·.1 == k) = true := by
  rw [List.any_eq_true]
  obtain ⟨p, hp, hpk⟩ := List.mem_map.1 hk
  exact ⟨p, hp, by simpa using hpk⟩

theorem decr_keys {m : List (String × Int)} {k : String} (hk : k ∈ m.map (·.1)) :
    (decr m k).map (·.1) = m.map (·.1) := by
  unfold decr
  rw [if_pos (any_key_of_mem hk)]
  rw [List.map_map]
  apply List.map_congr_left
  intro p _
  dsimp [Function.comp]
  split <;> rfl

theorem lookupDeg_decr {m : List (String × Int)} {k : String} (hk : k ∈ m.map (·.1))
    (x : String) :
    lookupDeg (decr m k) x = if x = k then lookupDeg m x - 1 else lookupDeg m x := by
  unfold decr
  rw [if_pos (any_key_of_mem hk)]
  unfold lookupDeg
  rw [List.find?_map]
  have hcong : ((fun p => p.1 == x) ∘ fun (p : String × Int) =>
      if p.1 == k then (p.1, p.2 - 1) else p) = fun (p : String × Int) => p.1 == x := by
    funext p
    dsimp [Function.comp]
    split <;> rfl
  rw [hcong]
  cases hf : m.find? (·.1 == x) with
  | none =>
    by_cases hxk : x = k
    · exfalso
      obtain ⟨p, hp, hpk⟩ := List.mem_map.1 hk
      have := List.find?_eq_none.1 hf p hp
      rw [hxk] at this
      simp [hpk] at this
    · simp [hxk]
  | some p =>
    have hpx : p.1 = x := by simpa using List.find?_some hf
    by_cases hxk : x = k
    · have hbeq : (p.1 == k) = true := by simp [hpx, hxk]
      simp [hbeq, hxk]
      rw [if_pos (show p.1 = k by rw [hpx, hxk])]
    · have hbeq : (p.1 == k) = false := by simp [hpx, hxk]
      simp [hbeq, hxk]
      rw [if_neg (show ¬p.1 = k by rw [hpx]; exact hxk)]

theorem applyDecrs_keys {ds : List String} :
    ∀ {m : List (String × Int)} {a : List String},
    (∀ d ∈ ds, d ∈ m.map (·.1)) →
    (applyDecrs (m, a) ds).1.map (·.1) = m.map (·.1) := by
  induction ds with
  | nil => intro m a _; rfl
  | cons d ds ih =>
    intro m a hev
    rw [applyDecrs]
    have hd : d ∈ m.map (·.1) := hev d (by simp)
    have hkeys := decr_keys hd
    have hev' : ∀ x ∈ ds, x ∈ (decr m d).map (·.1) := by
      intro x hx
      rw [hkeys]
      exact hev x (by simp [hx])
    split <;> rw [ih hev'] <;> exact hkeys

theorem count_cons_eq (x d : String) (ds : List String) :
    (d :: ds).count x = ds.count x + if x = d then 1 else 0 := by
  by_cases hxd : x = d
  · subst hxd
    simp [List.count_cons]
  · simp [List.count_cons, hxd, Ne.symm hxd]

theorem applyDecrs_lookup {ds : List String} :
    ∀ {m : List (String × Int)} {a : List String},
    (∀ d ∈ ds, d ∈ m.map (·.1)) → ∀ x,
    lookupDeg (applyDecrs (m, a) ds).1 x = lookupDeg m x - (ds.count x : Int) := by
  induction ds with
  | nil => intro m a _ x; simp [applyDecrs]
  | cons d ds ih =>
    intro m a hev x
    rw [applyDecrs]
    have hd : d ∈ m.map (·.1) := hev d (by simp)
    have hkeys := decr_keys hd
    have hev' : ∀ y ∈ ds, y ∈ (decr m d).map (·.1) := by
      intro y hy
      rw [hkeys]
      exact hev y (by simp [hy])
    have hstep := lookupDeg_decr hd x
    split
    · rw [ih hev' x, hstep, count_cons_eq]
      push_cast
      split_ifs <;> omega
    · rw [ih hev' x, hstep, count_cons_eq]
      push_cast
      split_ifs <;> omega

theorem applyDecrs_collect_count {ds : List String} :
    ∀ {m : List (String × Int)} {a : List String},
    (∀ d ∈ ds, d ∈ m.map (·.1)) → ∀ x,
    ((applyDecrs (m, a) ds).2).count x = a.count x +
      (if 0 < lookupDeg m x ∧ lookupDeg m x ≤ (ds.count x : Int) then 1 else 0) := by
  induction ds with
  | nil =>
    intro m a _ x
    rw [applyDecrs]
    have hno : ¬(0 < lookupDeg m x ∧ lookupDeg m x ≤ ((List.nil.count x : Nat) : Int)) := by
      rintro ⟨h1, h2⟩
      simp at h2
      omega
    rw [if_neg hno]
    simp
  | cons d ds ih =>
    intro m a hev x
    rw [applyDecrs]
    have hd : d ∈ m.map (·.1) := hev d (by simp)
    have hkeys := decr_keys hd
    have hev' : ∀ y ∈ ds, y ∈ (decr m d).map (·.1) := by
      intro y hy
      rw [hkeys]
      exact hev y (by simp [hy])
    have hstep := lookupDeg_decr hd
    have hstepd : lookupDeg (decr m d) d = lookupDeg m d - 1 := by
      rw [hstep d, if_pos rfl]
    split <;> rename_i hcond
    · -- collected: lookupDeg m d = 1
      have hLd : lookupDeg m d = 1 := by
        have hz : lookupDeg (decr m d) d = 0 := by simpa using hcond
        omega
      rw [ih hev' x, List.count_append, count_cons_eq, count_cons_eq, List.count_nil]
      by_cases hxd : x = d
      · subst hxd
        rw [hstepd, hLd]
        have h1 : ¬((0 : Int) < 1 - 1 ∧ 1 - 1 ≤ (ds.count x : Int)) := by
          rintro ⟨h1, _⟩
          omega
        have h2 : (0 : Int) < 1 ∧ (1 : Int) ≤ ((ds.count x + if x = x then 1 else 0 : Nat) : Int) := by
          refine ⟨by omega, ?_⟩
          rw [if_pos rfl]
          push_cast
          omega
        rw [if_neg h1, if_pos h2]
        simp
      · rw [hstep x, if_neg hxd, if_neg hxd]
        push_cast
        all_goals simp only [add_zero]
        all_goals omega
    · -- not collected: lookupDeg m d ≠ 1
      have hLd : lookupDeg m d ≠ 1 := by
        intro h1
        apply hcond
        have : lookupDeg (decr m d) d = 0 := by omega
        simpa using this
      rw [ih hev' x, count_cons_eq]
      by_cases hxd : x = d
      · subst hxd
        rw [hstepd, if_pos rfl]
        push_cast
        split_ifs <;> omega
      · rw [hstep x, if_neg hxd, if_neg hxd]
        push_cast
        all_goals simp only [add_zero]
        all_goals omega

theorem applyDecrs_collect_mem {ds : List String} {m : List (String × Int)} {x : String}
    (hev : ∀ d ∈ ds, d ∈ m.map (·.1)) :
    x ∈ (applyDecrs (m, []) ds).2 ↔
      0 < lookupDeg m x ∧ lookupDeg m x ≤ (ds.count x : Int) := by
  have hc := applyDecrs_collect_count hev (a := []) x
  rw [List.count_nil] at hc
  constructor
  · intro hx
    by_contra hcond
    rw [if_neg hcond] at hc
    have := List.count_pos_iff_mem.2 hx
    omega
  · intro hcond
    rw [if_pos hcond] at hc
    apply List.count_pos_iff_mem.1
    omega

theorem applyDecrs_collect_nodup {ds : List String} {m : List (String × Int)}
    (hev : ∀ d ∈ ds, d ∈ m.map (·.1)) :
    (applyDecrs (m, []) ds).2.Nodup := by
  rw [List.nodup_iff_count_le_one]
  intro x
  have hc := applyDecrs_collect_count hev (a := []) x
  rw [List.count_nil] at hc
  split_ifs at hc <;> omega

theorem mem_dependents {nodes : List (Node α)} {c x : String}
    (h : x ∈ dependents nodes c) : x ∈ ids nodes := by
  unfold dependents at h
  rw [List.mem_flatMap] at h
  obtain ⟨n, hn, hx⟩ := h
  rw [List.mem_filterMap] at hx
  obtain ⟨d, _, hd⟩ := hx
  have : x = n.ID := by
    by_cases hdc : (d == c) = true
    · rw [if_pos hdc] at hd
      injection hd with h2
      exact h2.symm
    · rw [if_neg hdc] at hd
      exact absurd hd (by simp)
  rw [this]
  exact List.mem_map.2 ⟨n, hn, rfl⟩

theorem count_filterMap_if (deps : List String) (c y x : String) :
    (deps.filterMap fun d => if d == c then some y else none).count x
      = if y = x then deps.count c else 0 := by
  induction deps with
  | nil => simp
  | cons e es ih =>
    rw [List.filterMap_cons]
    by_cases hec : e = c
    · rw [if_pos (by simpa using hec)]
      rw [count_cons_eq x y _, ih, count_cons_eq c e es,
        if_pos (show c = e from hec.symm)]
      by_cases hyx : y = x
      · simp [hyx]
      · simp [hyx, show x ≠ y from fun h => hyx h.symm]
    · rw [if_neg (by simpa using hec)]
      rw [ih, count_cons_eq c e es, if_neg (show ¬c = e from fun h => hec h.symm)]
      by_cases hyx : y = x
      · simp [hyx]
      · simp [hyx]

theorem count_dependents {nodes : List (Node α)} (hND : (ids nodes).Nodup) (c x : String) :
    (dependents nodes c).count x = (depIDs nodes x).count c := by
  induction nodes with
  | nil => simp [dependents, depIDs, findNode]
  | cons n ns ih =>
    have hND2 : (n.ID :: ids ns).Nodup := hND
    have hnd := List.nodup_cons.1 hND2
    unfold dependents
    rw [List.flatMap_cons, List.count_append, count_filterMap_if]
    by_cases hx : n.ID = x
    · have hxnot : x ∉ ids ns := by
        rw [← hx]
        exact hnd.1
      have hzero : (dependents ns c).count x = 0 := by
        rw [List.count_eq_zero]
        intro hmem
        exact hxnot (mem_dependents hmem)
      unfold dependents at hzero
      rw [if_pos hx, hzero]
      have hdep : depIDs (n :: ns) x = n.DependsOn := by
        unfold depIDs findNode
        rw [List.find?_cons_of_pos _ (by simpa using hx)]
      rw [hdep]
      simp
    · have hdep : depIDs (n :: ns) x = depIDs ns x := by
        unfold depIDs findNode
        rw [List.find?_cons_of_neg _ (by simpa using hx)]
      rw [if_neg hx, hdep]
      have hih := ih hnd.2
      unfold dependents at hih
      rw [hih]
      simp

theorem countP_mem_cons (L : List String) (c : String) (cs : List String) (hc : c ∉ cs) :
    L.countP (fun d => decide (d ∈ c :: cs)) = L.count c +
      L.countP (fun d => decide (d ∈ cs)) := by
  induction L with
  | nil => simp
  | cons e es ih =>
    rw [List.countP_cons, List.countP_cons, count_cons_eq, ih]
    by_cases h1 : c = e <;> by_cases h2 : e ∈ cs <;>
      simp_all [List.mem_cons, eq_comm] <;> omega

theorem countP_not_mem_split (L F C : List String) (hdisj : ∀ d ∈ C, d ∉ F) :
    L.countP (fun d => decide (d ∉ F)) =
      L.countP (fun d => decide (d ∈ C)) + L.countP (fun d => decide (d ∉ F ++ C)) := by
  induction L with
  | nil => simp
  | cons e es ih =>
    rw [List.countP_cons, List.countP_cons, List.countP_cons, ih]
    by_cases h1 : e ∈ C
    · have h2 : e ∉ F := hdisj e h1
      simp [h1, h2, List.mem_append]
      omega
    · by_cases h2 : e ∈ F
      · simp [h1, h2, List.mem_append]
      · simp [h1, h2, List.mem_append]
        omega

theorem count_events {nodes : List (Node α)} (hND : (ids nodes).Nodup) :
    ∀ current : List String, current.Nodup → ∀ x : String,
    (current.flatMap (dependents nodes)).count x
      = (depIDs nodes x).countP (fun d => decide (d ∈ current)) := by
  intro current
  induction current with
  | nil => intro _ x; simp
  | cons c cs ih =>
    intro hnd x
    rw [List.flatMap_cons, List.count_append]
    have hcnot : c ∉ cs := (List.nodup_cons.1 hnd).1
    rw [count_dependents hND, ih (List.nodup_cons.1 hnd).2 x]
    exact (countP_mem_cons _ c cs hcnot).symm

theorem placed_deps {nodes : List (Node α)} {levels : List (List String)}
    (hLD : ∀ i (h : i < levels.length), ∀ x ∈ levels[i],
      ∀ d ∈ depIDs nodes x, d ∈ (levels.take i).flatten) :
    ∀ x ∈ levels.flatten, ∀ d ∈ depIDs nodes x, d ∈ levels.flatten := by
  intro x hx d hd
  rw [List.mem_flatten] at hx
  obtain ⟨lvl, hlvl, hxl⟩ := hx
  obtain ⟨i, hi, heq⟩ := List.mem_iff_getElem.1 hlvl
  have := hLD i hi x (heq ▸ hxl) d hd
  rw [List.mem_flatten] at this ⊢
  obtain ⟨l2, hl2, hdl2⟩ := this
  exact ⟨l2, List.take_subset _ _ hl2, hdl2⟩

theorem kahnStep {nodes : List (Node α)} (hND : (ids nodes).Nodup)
    {inDeg : List (String × Int)} {current : List String} {levels : List (List String)}
    (inv : KahnInv nodes inDeg current levels) :
    KahnInv nodes (applyDecrs (inDeg, []) (current.flatMap (dependents nodes))).1
      (applyDecrs (inDeg, []) (current.flatMap (dependents nodes))).2
      (levels ++ [current]) := by
  set ds := current.flatMap (dependents nodes) with hds
  have hev : ∀ d ∈ ds, d ∈ inDeg.map (·.1) := by
    intro d hd
    rw [inv.keys]
    rw [hds, List.mem_flatMap] at hd
    obtain ⟨c, _, hdc⟩ := hd
    exact mem_dependents hdc
  have hnd3 := List.nodup_append.1 inv.nodupPlaced
  have hcurnodup : current.Nodup := hnd3.2.1
  have hdisjC : ∀ x ∈ current, x ∉ levels.flatten := by
    intro x hx hxf
    exact hnd3.2.2 hxf hx
  have hcount : ∀ x, ds.count x
      = (depIDs nodes x).countP (fun d => decide (d ∈ current)) := by
    intro x
    rw [hds]
    exact count_events hND current hcurnodup x
  have hflatten2 : (levels ++ [current]).flatten = levels.flatten ++ current := by
    simp
  have hL : ∀ x, lookupDeg inDeg x =
      ((depIDs nodes x).countP (fun d => decide (d ∉ levels.flatten)) : Int) :=
    inv.degCount
  have hdeg2 : ∀ x, lookupDeg (applyDecrs (inDeg, []) ds).1 x =
      ((depIDs nodes x).countP
        (fun d => decide (d ∉ (levels ++ [current]).flatten)) : Int) := by
    intro x
    rw [applyDecrs_lookup hev x, hL x, hcount x]
    have hsplit := countP_not_mem_split (depIDs nodes x) levels.flatten current hdisjC
    have hcongr : (depIDs nodes x).countP
        (fun d => decide (d ∉ (levels ++ [current]).flatten)) =
        (depIDs nodes x).countP (fun d => decide (d ∉ levels.flatten ++ current)) := by
      apply List.countP_congr
      intro d _
      rw [hflatten2]
    rw [hcongr]
    omega
  have hnext : ∀ x, x ∈ (applyDecrs (inDeg, []) ds).2 ↔
      0 < lookupDeg inDeg x ∧ lookupDeg inDeg x ≤ (ds.count x : Int) :=
    fun x => applyDecrs_collect_mem hev
  have hnextids : ∀ x ∈ (applyDecrs (inDeg, []) ds).2, x ∈ ids nodes := by
    intro x hx
    have h0 := (hnext x).1 hx
    rw [← inv.keys]
    exact mem_keys_of_lookupDeg_ne_zero (by omega)
  have hnextnew : ∀ x ∈ (applyDecrs (inDeg, []) ds).2, x ∉ levels.flatten ++ current := by
    intro x hx hmem
    have h0 := (hnext x).1 hx
    rcases List.mem_append.1 hmem with hf | hc
    · have hdz : ∀ d ∈ depIDs nodes x, d ∈ levels.flatten :=
        placed_deps inv.levelDeps x hf
      have : (depIDs nodes x).countP (fun d => decide (d ∉ levels.flatten)) = 0 := by
        rw [List.countP_eq_zero]
        intro d hd
        simp [hdz d hd]
      rw [hL x, this] at h0
      omega
    · have := (inv.currentIff x).1 hc
      omega
  refine ⟨?_, ?_, ?_, hdeg2, ?_, ?_, ?_⟩
  · rw [applyDecrs_keys hev]
    exact inv.keys
  · rw [hflatten2, List.nodup_append]
    refine ⟨inv.nodupPlaced, applyDecrs_collect_nodup hev, ?_⟩
    intro x hx hx2
    exact hnextnew x hx2 hx
  · intro x hx
    rw [hflatten2] at hx
    rcases List.mem_append.1 hx with h1 | h2
    · exact inv.placedSub x h1
    · exact hnextids x h2
  · intro x
    constructor
    · intro hx
      have h0 := (hnext x).1 hx
      refine ⟨hnextids x hx, ?_, ?_⟩
      · rw [hflatten2]
        exact hnextnew x hx
      · have := hdeg2 x
        have h2 := applyDecrs_lookup (a := []) hev x
        omega
    · rintro ⟨hids, hnf, hz⟩
      rw [hflatten2] at hnf
      have hnc : x ∉ current := fun hc => hnf (List.mem_append.2 (Or.inr hc))
      have hnff : x ∉ levels.flatten := fun hc => hnf (List.mem_append.2 (Or.inl hc))
      have hLne : lookupDeg inDeg x ≠ 0 := by
        intro h0
        exact hnc ((inv.currentIff x).2 ⟨hids, hnff, h0⟩)
      have hLnn : 0 ≤ lookupDeg inDeg x := by
        rw [hL x]
        omega
      have h2 := applyDecrs_lookup (a := []) hev x
      rw [(hnext x)]
      omega
  · intro i h x hx d hd
    by_cases hi : i < levels.length
    · have hget : (levels ++ [current])[i] = levels[i] :=
        List.getElem_append_left hi
      have htake : (levels ++ [current]).take i = levels.take i := by
        rw [List.take_append_of_le_length (by omega)]
      rw [hget] at hx
      rw [htake]
      exact inv.levelDeps i hi x hx d hd
    · have hieq : i = levels.length := by
        simp at h
        omega
      subst hieq
      have hget : (levels ++ [current])[levels.length] = current := by
        rw [List.getElem_append_right (by omega)]
        simp
      have htake : (levels ++ [current]).take levels.length = levels := by
        rw [List.take_append_of_le_length (by omega)]
        simp
      rw [hget] at hx
      rw [htake]
      exact inv.currentDeps x hx d hd
  · intro x hx d hd
    have hz := ((hnext x).1 hx)
    have h2 := applyDecrs_lookup (a := []) hev x
    have h3 := hdeg2 x
    have hzero : (depIDs nodes x).countP
        (fun d => decide (d ∉ (levels ++ [current]).flatten)) = 0 := by
      omega
    rw [List.countP_eq_zero] at hzero
    have h4 := hzero d hd
    by_contra hnm
    simp [hnm] at h4
    rw [hflatten2] at hnm
    have hnf : d ∉ levels.flatten := fun h => hnm (List.mem_append.2 (Or.inl h))
    have hncur : d ∉ current := fun h => hnm (List.mem_append.2 (Or.inr h))
    apply hncur
    apply h4
    intro lvl hlvl hdl
    exact hnf (List.mem_flatten.2 ⟨lvl, hlvl, hdl⟩)

theorem placed_length_le {nodes : List (Node α)} {inDeg : List (String × Int)}
    {current : List String} {levels : List (List String)}
    (inv : KahnInv nodes inDeg current levels) :
    levels.flatten.length ≤ nodes.length := by
  have hnodup : levels.flatten.Nodup := (List.nodup_append.1 inv.nodupPlaced).1
  have hsub : levels.flatten ⊆ ids nodes := by
    intro x hx
    exact inv.placedSub x (List.mem_append.2 (Or.inl hx))
  have hle := List.Subperm.length_le (hnodup.subperm hsub)
  have hlen : (ids nodes).length = nodes.length := by simp [ids]
  omega

theorem kahnLoop_spec {nodes : List (Node α)} (hND : (ids nodes).Nodup) :
    ∀ (fuel : Nat) (inDeg : List (String × Int)) (current : List String)
      (levels : List (List String)),
    KahnInv nodes inDeg current levels →
    nodes.length < fuel + levels.flatten.length →
    ∃ rest : List (List String),
      kahnLoop nodes fuel inDeg current levels levels.flatten.length
        = (levels ++ rest, (levels ++ rest).flatten.length)
      ∧ (current ≠ [] → ∃ rest2, rest = current :: rest2)
      ∧ (current = [] → rest = [])
      ∧ KahnFinal nodes (levels ++ rest) := by
  intro fuel
  induction fuel with
  | zero =>
    intro inDeg current levels inv hfuel
    exfalso
    have := placed_length_le inv
    omega
  | succ f ih =>
    intro inDeg current levels inv hfuel
    by_cases hcur : current.isEmpty
    · have hc : current = [] := by
        cases current with
        | nil => rfl
        | cons a l => simp [List.isEmpty] at hcur
      rw [kahnLoop, if_pos hcur]
      refine ⟨[], by simp, fun h => absurd hc h, fun _ => rfl, ?_⟩
      subst hc
      rw [List.append_nil]
      have hnodup : levels.flatten.Nodup := by
        have := inv.nodupPlaced
        simpa using this
      refine ⟨hnodup, ?_, inv.levelDeps, ?_⟩
      · intro x hx
        exact inv.placedSub x (List.mem_append.2 (Or.inl hx))
      · intro x hx hnf
        have hne : lookupDeg inDeg x ≠ 0 := by
          intro h0
          have : x ∈ ([] : List String) := (inv.currentIff x).2 ⟨hx, hnf, h0⟩
          simp at this
        rw [inv.degCount x] at hne
        have hpos : 0 < (depIDs nodes x).countP
            (fun d => decide (d ∉ levels.flatten)) := by
          omega
        rw [List.countP_pos] at hpos
        obtain ⟨d, hd, hdp⟩ := hpos
        exact ⟨d, hd, by simpa using hdp⟩
    · have hcne : current ≠ [] := by
        intro hc
        rw [hc] at hcur
        simp at hcur
      rw [kahnLoop, if_neg hcur]
      have hinv2 := kahnStep hND inv
      have hlen : 0 < current.length := List.length_pos.2 hcne
      have hflatlen : (levels ++ [current]).flatten.length
          = levels.flatten.length + current.length := by
        simp
      have hfuel2 : nodes.length < f + (levels ++ [current]).flatten.length := by
        rw [hflatlen]
        omega
      obtain ⟨rest, hloop, _, _, hfinal⟩ := ih _ _ _ hinv2 hfuel2
      refine ⟨current :: rest, ?_, fun _ => ⟨rest, rfl⟩, fun hc => absurd hc hcne, ?_⟩
      · have hproc : levels.flatten.length + current.length
            = (levels ++ [current]).flatten.length := by
          rw [hflatlen]
        rw [hproc]
        have hassoc : levels ++ current :: rest = (levels ++ [current]) ++ rest := by
          simp
        rw [hassoc]
        exact hloop
      · have hassoc : levels ++ current :: rest = (levels ++ [current]) ++ rest := by
          simp
        rw [hassoc]
        exact hfinal

theorem lookupDeg_cons_pos {p : String × Int} {ps : List (String × Int)} {x : String}
    (h : p.1 = x) : lookupDeg (p :: ps) x = p.2 := by
  unfold lookupDeg
  rw [List.find?_cons_of_pos (p := fun q : String × Int => q.1 == x) _ (by simpa using h)]
  rfl

theorem lookupDeg_cons_neg {p : String × Int} {ps : List (String × Int)} {x : String}
    (h : ¬p.1 = x) : lookupDeg (p :: ps) x = lookupDeg ps x := by
  unfold lookupDeg
  rw [List.find?_cons_of_neg (p := fun q : String × Int => q.1 == x) _ (by simpa using h)]

theorem lookupDeg_init (nodes : List (Node α)) (x : String) :
    lookupDeg (initInDegree nodes) x = ((depIDs nodes x).length : Int) := by
  induction nodes with
  | nil => simp [initInDegree, lookupDeg, depIDs, findNode]
  | cons n ns ih =>
    simp only [initInDegree, List.map_cons]
    by_cases hx : n.ID = x
    · rw [lookupDeg_cons_pos hx]
      unfold depIDs findNode
      rw [List.find?_cons_of_pos (p := fun nd : Node α => nd.ID == x) _ (by simpa using hx)]
    · rw [lookupDeg_cons_neg hx]
      unfold depIDs findNode
      rw [List.find?_cons_of_neg (p := fun nd : Node α => nd.ID == x) _ (by simpa using hx)]
      unfold initInDegree depIDs findNode at ih
      exact ih

theorem initLevel_sublist (m : List (String × Int)) :
    (initLevel m).Sublist (m.map (·.1)) := by
  induction m with
  | nil => simp [initLevel]
  | cons p ps ih =>
    unfold initLevel
    rw [List.map_cons]
    by_cases hz : (p.2 == 0) = true
    · have hfa : (fun q : String × Int => if q.2 == 0 then some q.1 else none) p = some p.1 := by
        show (if (p.2 == 0) = true then some p.1 else none) = some p.1
        rw [if_pos hz]
      rw [List.filterMap_cons_some (f := fun q : String × Int => if q.2 == 0 then some q.1 else none) (a := p) (l := ps) hfa]
      exact ih.cons₂ _
    · have hfn : (fun q : String × Int => if q.2 == 0 then some q.1 else none) p = none := by
        show (if (p.2 == 0) = true then some p.1 else none) = none
        rw [if_neg hz]
      rw [List.filterMap_cons_none (f := fun q : String × Int => if q.2 == 0 then some q.1 else none) (a := p) (l := ps) hfn]
      exact ih.cons _

theorem initLevel_mem {m : List (String × Int)} (hnd : (m.map (·.1)).Nodup) (x : String) :
    x ∈ initLevel m ↔ x ∈ m.map (·.1) ∧ lookupDeg m x = 0 := by
  induction m with
  | nil => simp [initLevel, lookupDeg]
  | cons p ps ih =>
    have hnd1 : (p.1 :: ps.map (·.1)).Nodup := hnd
    have hnd2 := List.nodup_cons.1 hnd1
    have ihp := ih hnd2.2
    unfold initLevel at ihp ⊢
    by_cases hx : p.1 = x
    · have hxnot : x ∉ ps.map (·.1) := by
        rw [← hx]
        exact hnd2.1
      have hxnotinit : x ∉ ps.filterMap fun q => if q.2 == 0 then some q.1 else none := by
        intro hmem
        exact hxnot ((List.Sublist.subset (initLevel_sublist ps)) hmem)
      have hlook := @lookupDeg_cons_pos p ps x hx
      by_cases hz : (p.2 == 0) = true
      · have hfa : (fun q : String × Int => if q.2 == 0 then some q.1 else none) p = some p.1 := by
          show (if (p.2 == 0) = true then some p.1 else none) = some p.1
          rw [if_pos hz]
        rw [List.filterMap_cons_some (f := fun q : String × Int => if q.2 == 0 then some q.1 else none) (a := p) (l := ps) hfa]
        constructor
        · intro _
          refine ⟨List.mem_cons.2 (Or.inl hx.symm), ?_⟩
          rw [hlook]
          simpa using hz
        · intro _
          exact List.mem_cons.2 (Or.inl hx.symm)
      · have hfn : (fun q : String × Int => if q.2 == 0 then some q.1 else none) p = none := by
          show (if (p.2 == 0) = true then some p.1 else none) = none
          rw [if_neg hz]
        rw [List.filterMap_cons_none (f := fun q : String × Int => if q.2 == 0 then some q.1 else none) (a := p) (l := ps) hfn]
        constructor
        · intro hmem
          exact absurd hmem hxnotinit
        · rintro ⟨_, hlz⟩
          rw [hlook] at hlz
          simp [hlz] at hz
    · have hlook := @lookupDeg_cons_neg p ps x hx
      have hmemiff : x ∈ (p :: ps).map (·.1) ↔ x ∈ ps.map (·.1) := by
        simp only [List.map_cons, List.mem_cons]
        constructor
        · rintro (h | h)
          · exact absurd h.symm hx
          · exact h
        · exact Or.inr
      rw [hlook, hmemiff]
      by_cases hz : (p.2 == 0) = true
      · have hfa : (fun q : String × Int => if q.2 == 0 then some q.1 else none) p = some p.1 := by
          show (if (p.2 == 0) = true then some p.1 else none) = some p.1
          rw [if_pos hz]
        rw [List.filterMap_cons_some (f := fun q : String × Int => if q.2 == 0 then some q.1 else none) (a := p) (l := ps) hfa]
        rw [List.mem_cons]
        constructor
        · rintro (h | h)
          · exact absurd h.symm hx
          · exact ihp.1 h
        · intro h
          exact Or.inr (ihp.2 h)
      · have hfn : (fun q : String × Int => if q.2 == 0 then some q.1 else none) p = none := by
          show (if (p.2 == 0) = true then some p.1 else none) = none
          rw [if_neg hz]
        rw [List.filterMap_cons_none (f := fun q : String × Int => if q.2 == 0 then some q.1 else none) (a := p) (l := ps) hfn]
        exact ihp

theorem kahnInit {nodes : List (Node α)} (hND : (ids nodes).Nodup) :
    KahnInv nodes (initInDegree nodes) (initLevel (initInDegree nodes)) [] := by
  have hkeys : (initInDegree nodes).map (·.1) = ids nodes := by
    simp [initInDegree, ids]
  have hknd : ((initInDegree nodes).map (·.1)).Nodup := by
    rw [hkeys]
    exact hND
  have hmem := initLevel_mem hknd
  refine ⟨hkeys, ?_, ?_, ?_, ?_, ?_, ?_⟩
  · simp only [List.flatten_nil, List.nil_append]
    exact ((initLevel_sublist (initInDegree nodes)).nodup hknd)
  · intro x hx
    simp only [List.flatten_nil, List.nil_append] at hx
    rw [← hkeys]
    exact (List.Sublist.subset (initLevel_sublist _)) hx
  · intro x
    rw [lookupDeg_init]
    simp
  · intro x
    rw [hmem x, hkeys]
    constructor
    · rintro ⟨h1, h2⟩
      exact ⟨h1, by simp, h2⟩
    · rintro ⟨h1, _, h2⟩
      exact ⟨h1, h2⟩
  · intro i h
    simp at h
  · intro x hx d hd
    have h0 := (hmem x).1 hx
    rw [lookupDeg_init] at h0
    have hlen : (depIDs nodes x).length = 0 := by
      have := h0.2
      omega
    rw [List.length_eq_zero] at hlen
    rw [hlen] at hd
    simp at hd

theorem findNode_isSome {nodes : List (Node α)} {d : String} :
    (findNode nodes d).isSome = true ↔ d ∈ ids nodes := by
  unfold findNode
  rw [List.find?_isSome]
  constructor
  · rintro ⟨n, hn, hnd⟩
    exact mem_ids.2 ⟨n, hn, by simpa using hnd⟩
  · intro hd
    obtain ⟨n, hn, hnd⟩ := mem_ids.1 hd
    exact ⟨n, hn, by simpa using hnd⟩

theorem unknownDepError_none_iff {nodes : List (Node α)} :
    unknownDepError nodes = none ↔ ∀ n ∈ nodes, ∀ d ∈ n.DependsOn, d ∈ ids nodes := by
  unfold unknownDepError
  rw [List.findSome?_eq_none_iff]
  constructor
  · intro h n hn d hd
    have := h n hn
    rw [List.findSome?_eq_none_iff] at this
    have h2 := this d hd
    by_cases hs : (findNode nodes d).isSome = true
    · exact findNode_isSome.1 hs
    · rw [if_neg hs] at h2
      exact absurd h2 (by simp)
  · intro h n hn
    rw [List.findSome?_eq_none_iff]
    intro d hd
    rw [if_pos (findNode_isSome.2 (h n hn d hd))]

theorem flatten_nodup_level_unique {levels : List (List String)}
    (h : levels.flatten.Nodup) :
    ∀ {i j : Nat} (hi : i < levels.length) (hj : j < levels.length) {x : String},
    x ∈ levels[i] → x ∈ levels[j] → i = j := by
  induction levels with
  | nil => intro i j hi; simp at hi
  | cons L rest ih =>
    intro i j hi hj x hxi hxj
    rw [List.flatten_cons, List.nodup_append] at h
    cases i with
    | zero =>
      cases j with
      | zero => rfl
      | succ j2 =>
        exfalso
        have hj2 : j2 < rest.length := by simpa using hj
        have hxj2 : x ∈ rest[j2] := by simpa using hxj
        have hxi2 : x ∈ L := by simpa using hxi
        exact h.2.2 hxi2 (List.mem_flatten.2 ⟨rest[j2], List.getElem_mem hj2, hxj2⟩)
    | succ i2 =>
      cases j with
      | zero =>
        exfalso
        have hi2 : i2 < rest.length := by simpa using hi
        have hxi2 : x ∈ rest[i2] := by simpa using hxi
        have hxj2 : x ∈ L := by simpa using hxj
        exact h.2.2 hxj2 (List.mem_flatten.2 ⟨rest[i2], List.getElem_mem hi2, hxi2⟩)
      | succ j2 =>
        have hi2 : i2 < rest.length := by simpa using hi
        have hj2 : j2 < rest.length := by simpa using hj
        have hxi2 : x ∈ rest[i2] := by simpa using hxi
        have hxj2 : x ∈ rest[j2] := by simpa using hxj
        have := ih h.2.1 hi2 hj2 hxi2 hxj2
        omega

/-- Characterisation of a successful `topoSortLevels`: the levels partition
the node IDs, every node's dependencies lie in strictly earlier levels, and
level 0 is exactly the nodes without dependencies. -/
theorem topo_ok_spec {nodes : List (Node α)} (hND : (ids nodes).Nodup)
    {levels : List (List String)} (hok : topoSortLevels nodes = .ok levels) :
    levels.flatten.Perm (ids nodes)
    ∧ (∀ i (h : i < levels.length), ∀ x ∈ levels[i],
        ∀ d ∈ depIDs nodes x, d ∈ (levels.take i).flatten)
    ∧ (∀ x, x ∈ levels.getD 0 [] ↔ x ∈ ids nodes ∧ depIDs nodes x = []) := by
  unfold topoSortLevels at hok
  cases hue : unknownDepError nodes with
  | some m =>
    rw [hue] at hok
    exact absurd hok (by simp)
  | none =>
    rw [hue] at hok
    dsimp only at hok
    obtain ⟨rest, hloop, hhead, hnil, hfinal⟩ :=
      kahnLoop_spec hND (nodes.length + 1) (initInDegree nodes)
        (initLevel (initInDegree nodes)) [] (kahnInit hND) (by simp)
    simp only [List.flatten_nil, List.length_nil, List.nil_append] at hloop hfinal
    rw [hloop] at hok
    by_cases hlen : (rest.flatten.length == nodes.length) = true
    · rw [if_pos hlen] at hok
      have hlev : levels = rest := by
        injection hok with h2
        exact h2.symm
      subst hlev
      have hlenn : levels.flatten.length = nodes.length := by simpa using hlen
      have hidslen : (ids nodes).length = nodes.length := by simp [ids]
      have hperm : levels.flatten.Perm (ids nodes) := by
        apply List.Subperm.perm_of_length_le
        · exact hfinal.nodup.subperm (fun x hx => hfinal.sub x hx)
        · omega
      refine ⟨hperm, hfinal.levelDeps, ?_⟩
      intro x
      cases hcur : initLevel (initInDegree nodes) with
      | nil =>
        have hrest : levels = [] := hnil hcur
        subst hrest
        have hzero : nodes.length = 0 := by simpa using hlenn.symm
        have hids : ids nodes = [] := by
          apply List.eq_nil_of_length_eq_zero
          omega
        simp [hids]
      | cons c cs =>
        obtain ⟨rest2, hrest⟩ := hhead (by rw [hcur]; simp)
        have hget : levels.getD 0 [] = initLevel (initInDegree nodes) := by
          rw [hrest, hcur]
          rfl
        rw [hget]
        have hkeys : (initInDegree nodes).map (·.1) = ids nodes := by
          simp [initInDegree, ids]
        have hknd : ((initInDegree nodes).map (·.1)).Nodup := by
          rw [hkeys]
          exact hND
        rw [initLevel_mem hknd x, hkeys, lookupDeg_init]
        constructor
        · rintro ⟨h1, h2⟩
          refine ⟨h1, ?_⟩
          apply List.eq_nil_of_length_eq_zero
          omega
        · rintro ⟨h1, h2⟩
          rw [h2]
          exact ⟨h1, by simp⟩
    · rw [if_neg hlen] at hok
      exact absurd hok (by simp)

theorem depPath_reachPos {nodes : List (Node α)} :
    ∀ {k : Nat} {x y : String}, DepPath nodes x y k → ∀ {fuel : Nat}, k ≤ fuel →
    y ∈ reachPos nodes fuel x := by
  intro k x y hp
  induction hp with
  | single h =>
    intro fuel hk
    cases fuel with
    | zero => omega
    | succ f =>
      simp only [reachPos]
      exact List.mem_append.2 (Or.inl h)
  | cons h hp ih =>
    intro fuel hk
    cases fuel with
    | zero => omega
    | succ f =>
      simp only [reachPos]
      apply List.mem_append.2
      right
      rw [List.mem_flatMap]
      exact ⟨_, h, ih (by omega)⟩

theorem reachPos_depPath {nodes : List (Node α)} :
    ∀ {fuel : Nat} {x y : String}, y ∈ reachPos nodes fuel x →
    ∃ k, 1 ≤ k ∧ DepPath nodes x y k := by
  intro fuel
  induction fuel with
  | zero => intro x y hy; simp [reachPos] at hy
  | succ f ih =>
    intro x y hy
    simp only [reachPos] at hy
    rcases List.mem_append.1 hy with h1 | h1
    · exact ⟨1, le_refl 1, .single h1⟩
    · rw [List.mem_flatMap] at h1
      obtain ⟨z, hz, hy2⟩ := h1
      obtain ⟨k, hk, hp⟩ := ih hy2
      exact ⟨k + 1, by omega, .cons hz hp⟩

theorem mem_take_flatten_getElem {levels : List (List String)} {i : Nat} {y : String}
    (h : y ∈ (levels.take i).flatten) :
    ∃ j, ∃ hj : j < levels.length, j < i ∧ y ∈ levels[j] := by
  rw [List.mem_flatten] at h
  obtain ⟨lvl, hlvl, hyl⟩ := h
  obtain ⟨j, hj, hjeq⟩ := List.mem_iff_getElem.1 hlvl
  have hjt := hj
  rw [List.length_take] at hjt
  have hjlen : j < levels.length := by omega
  have hji : j < i := by omega
  refine ⟨j, hjlen, hji, ?_⟩
  have hteq : (levels.take i)[j] = levels[j] := by rw [List.getElem_take]
  rw [hteq] at hjeq
  rw [hjeq]
  exact hyl

theorem depPath_level_lt {nodes : List (Node α)} {levels : List (List String)}
    (hLD : ∀ i (h : i < levels.length), ∀ x ∈ levels[i],
      ∀ d ∈ depIDs nodes x, d ∈ (levels.take i).flatten) :
    ∀ {x y : String} {k : Nat}, DepPath nodes x y k →
    ∀ i (hi : i < levels.length), x ∈ levels[i] →
    ∃ j, ∃ hj : j < levels.length, j < i ∧ y ∈ levels[j] := by
  intro x y k hp
  induction hp with
  | @single x1 y1 h =>
    intro i hi hx
    exact mem_take_flatten_getElem (hLD i hi x1 hx _ h)
  | @cons x1 y1 z1 k1 h hp ih =>
    intro i hi hx
    obtain ⟨j, hj, hji, hyj⟩ := mem_take_flatten_getElem (hLD i hi x1 hx _ h)
    obtain ⟨j2, hj2, hj2j, hzj2⟩ := ih j hj hyj
    exact ⟨j2, hj2, by omega, hzj2⟩

theorem cycleMsg_ne_unknownMsg (a b : String) : cycleMsg ≠ unknownMsg a b := by
  intro h
  have h1 : cycleMsg.data.head? = some 'c' := rfl
  have h2 : (unknownMsg a b).data.head? = some 'n' := by
    unfold unknownMsg
    rw [String.data_append, String.data_append, String.data_append]
    rfl
  rw [h] at h1
  rw [h1] at h2
  simp at h2

theorem depIDs_subset {nodes : List (Node α)}
    (hClosed : ∀ n ∈ nodes, ∀ d ∈ n.DependsOn, d ∈ ids nodes) {z d : String}
    (hd : d ∈ depIDs nodes z) : d ∈ ids nodes := by
  unfold depIDs at hd
  cases hfz : findNode nodes z with
  | none =>
    rw [hfz] at hd
    simp at hd
  | some nd =>
    rw [hfz] at hd
    exact hClosed nd (findNode_eq_some hfz).1 d hd

theorem hasCycle_of_unplaced {nodes : List (Node α)} (hND : (ids nodes).Nodup)
    (hClosed : ∀ n ∈ nodes, ∀ d ∈ n.DependsOn, d ∈ ids nodes)
    {levelsF : List (List String)} (hfinal : KahnFinal nodes levelsF)
    (hlt : levelsF.flatten.length < nodes.length) : hasCycle nodes = true := by
  classical
  have hex : ∃ x, x ∈ ids nodes ∧ x ∉ levelsF.flatten := by
    by_contra hall
    push_neg at hall
    have hle := List.Subperm.length_le (hND.subperm hall)
    have hlen : (ids nodes).length = nodes.length := by simp [ids]
    omega
  obtain ⟨x0, hx0, hx0n⟩ := hex
  have hstep : ∀ z, z ∈ ids nodes ∧ z ∉ levelsF.flatten →
      ∃ w, w ∈ depIDs nodes z ∧ (w ∈ ids nodes ∧ w ∉ levelsF.flatten) := by
    rintro z ⟨hz, hzn⟩
    obtain ⟨d, hd, hdn⟩ := hfinal.unplaced z hz hzn
    exact ⟨d, hd, depIDs_subset hClosed hd, hdn⟩
  let step : {z : String // z ∈ ids nodes ∧ z ∉ levelsF.flatten} →
      {z : String // z ∈ ids nodes ∧ z ∉ levelsF.flatten} :=
    fun z => ⟨Classical.choose (hstep z.1 z.2), (Classical.choose_spec (hstep z.1 z.2)).2⟩
  let f : Nat → {z : String // z ∈ ids nodes ∧ z ∉ levelsF.flatten} :=
    fun n => step^[n] ⟨x0, hx0, hx0n⟩
  have hfstep : ∀ n, (f (n + 1)).1 ∈ depIDs nodes (f n).1 := by
    intro n
    have hit : f (n + 1) = step (f n) := Function.iterate_succ_apply' step n _
    rw [hit]
    exact (Classical.choose_spec (hstep (f n).1 (f n).2)).1
  have hpath : ∀ m k, DepPath nodes (f k).1 (f (k + m + 1)).1 (m + 1) := by
    intro m
    induction m with
    | zero => intro k; exact .single (hfstep k)
    | succ m2 ihm =>
      intro k
      have h2 := ihm (k + 1)
      have heq : k + 1 + m2 + 1 = k + (m2 + 1) + 1 := by omega
      rw [heq] at h2
      exact .cons (hfstep k) h2
  have hcard : (ids nodes).toFinset.card < Fintype.card (Fin (nodes.length + 1)) := by
    have h1 := List.toFinset_card_le (ids nodes)
    have hlen : (ids nodes).length = nodes.length := by simp [ids]
    simp only [Fintype.card_fin]
    omega
  have hmaps : ∀ i : Fin (nodes.length + 1), i ∈ Finset.univ →
      (f i.1).1 ∈ (ids nodes).toFinset := by
    intro i _
    rw [List.mem_toFinset]
    exact (f i.1).2.1
  obtain ⟨i, _, j, _, hij, heq⟩ :=
    Finset.exists_ne_map_eq_of_card_lt_of_maps_to hcard hmaps
  have hgen : ∀ a b : Nat, a < b → b ≤ nodes.length → (f a).1 = (f b).1 →
      hasCycle nodes = true := by
    intro a b hab hbn hfeq
    have hp := hpath (b - a - 1) a
    have hidx : a + (b - a - 1) + 1 = b := by omega
    rw [hidx] at hp
    rw [← hfeq] at hp
    have hz2 : (f a).1 ∈ reachPos nodes nodes.length (f a).1 :=
      depPath_reachPos hp (by omega)
    unfold hasCycle
    rw [List.any_eq_true]
    obtain ⟨nd, hnd, hndid⟩ := mem_ids.1 (f a).2.1
    refine ⟨nd, hnd, ?_⟩
    rw [hndid]
    exact List.elem_iff.2 hz2
  rcases Nat.lt_or_ge i.1 j.1 with hlt2 | hge
  · exact hgen i.1 j.1 hlt2 (by omega) heq
  · have hne : i.1 ≠ j.1 := fun hc => hij (Fin.ext hc)
    have hlt2 : j.1 < i.1 := by omega
    exact hgen j.1 i.1 hlt2 (by omega) heq.symm

/-- Acyclic, dependency-closed node sets plan successfully. -/
theorem topo_complete {nodes : List (Node α)} (hND : (ids nodes).Nodup)
    (hClosed : ∀ n ∈ nodes, ∀ d ∈ n.DependsOn, d ∈ ids nodes)
    (hAcyc : hasCycle nodes = false) :
    ∃ levels, topoSortLevels nodes = .ok levels := by
  unfold topoSortLevels
  rw [unknownDepError_none_iff.2 hClosed]
  dsimp only
  obtain ⟨rest, hloop, _, _, hfinal⟩ :=
    kahnLoop_spec hND (nodes.length + 1) (initInDegree nodes)
      (initLevel (initInDegree nodes)) [] (kahnInit hND) (by simp)
  simp only [List.flatten_nil, List.length_nil, List.nil_append] at hloop hfinal
  rw [hloop]
  have hle : rest.flatten.length ≤ nodes.length := by
    have hsp := List.Subperm.length_le (hfinal.nodup.subperm (fun x hx => hfinal.sub x hx))
    have hlen : (ids nodes).length = nodes.length := by simp [ids]
    omega
  have heq : rest.flatten.length = nodes.length := by
    by_contra hne
    have hlt : rest.flatten.length < nodes.length := by omega
    rw [hasCycle_of_unplaced hND hClosed hfinal hlt] at hAcyc
    simp at hAcyc
  refine ⟨rest, ?_⟩
  rw [if_pos (by simpa using heq)]

/-- C1: on a duplicate-free, dependency-closed, acyclic node set,
`topoSortLevels` succeeds; its levels enumerate every node exactly once
(the flattening is a permutation of the ID set), every node's level index is
strictly greater than each dependency's level index, and level 0 is exactly
the nodes with no dependencies. -/
theorem C1_topoSortLevels_correct {α} (nodes : List (Node α))
    (hND : (ids nodes).Nodup)
    (hClosed : ∀ n ∈ nodes, ∀ d ∈ n.DependsOn, d ∈ ids nodes)
    (hAcyc : hasCycle nodes = false) :
    ∃ levels, topoSortLevels nodes = .ok levels
      ∧ levels.flatten.Perm (ids nodes)
      ∧ (∀ i (hi : i < levels.length), ∀ x ∈ levels[i], ∀ d ∈ depIDs nodes x,
          ∀ j (hj : j < levels.length), d ∈ levels[j] → j < i)
      ∧ (∀ x, x ∈ levels.getD 0 [] ↔ x ∈ ids nodes ∧ depIDs nodes x = []) := by
  obtain ⟨levels, hok⟩ := topo_complete hND hClosed hAcyc
  obtain ⟨hperm, hLD, hlvl0⟩ := topo_ok_spec hND hok
  refine ⟨levels, hok, hperm, ?_, hlvl0⟩
  intro i hi x hx d hd j hj hdj
  obtain ⟨j2, hj2, hj2i, hdj2⟩ := mem_take_flatten_getElem (hLD i hi x hx d hd)
  have hnodup : levels.flatten.Nodup := hperm.nodup_iff.2 hND
  have := flatten_nodup_level_unique hnodup hj hj2 hdj hdj2
  omega

/-- Witness for C1 at the diamond graph d ← c ← {a, b}. -/
theorem C1_witness :
    ∃ levels, topoSortLevels cat5 = .ok levels
      ∧ levels.flatten.Perm (ids cat5)
      ∧ (∀ i (hi : i < levels.length), ∀ x ∈ levels[i], ∀ d ∈ depIDs cat5 x,
          ∀ j (hj : j < levels.length), d ∈ levels[j] → j < i)
      ∧ (∀ x, x ∈ levels.getD 0 [] ↔ x ∈ ids cat5 ∧ depIDs cat5 x = []) :=
  C1_topoSortLevels_correct cat5 (by decide) (by decide) (by decide)

/-- C6: a duplicate-free, dependency-closed node set containing a dependency
cycle makes `topoSortLevels` fail with exactly the cycle-detected error,
which differs from every unknown-dependency error. -/
theorem C6_cycle_error {α} (nodes : List (Node α))
    (hND : (ids nodes).Nodup)
    (hClosed : ∀ n ∈ nodes, ∀ d ∈ n.DependsOn, d ∈ ids nodes)
    (hCyc : hasCycle nodes = true) :
    topoSortLevels nodes = .error cycleMsg
    ∧ (∀ a b, cycleMsg ≠ unknownMsg a b) := by
  refine ⟨?_, cycleMsg_ne_unknownMsg⟩
  unfold topoSortLevels
  rw [unknownDepError_none_iff.2 hClosed]
  dsimp only
  obtain ⟨rest, hloop, _, _, hfinal⟩ :=
    kahnLoop_spec hND (nodes.length + 1) (initInDegree nodes)
      (initLevel (initInDegree nodes)) [] (kahnInit hND) (by simp)
  simp only [List.flatten_nil, List.length_nil, List.nil_append] at hloop hfinal
  rw [hloop]
  have hne : rest.flatten.length ≠ nodes.length := by
    intro heqq
    have hidlen : (ids nodes).length = nodes.length := by simp [ids]
    have hperm : rest.flatten.Perm (ids nodes) := by
      apply List.Subperm.perm_of_length_le
      · exact hfinal.nodup.subperm (fun x hx => hfinal.sub x hx)
      · omega
    unfold hasCycle at hCyc
    rw [List.any_eq_true] at hCyc
    obtain ⟨nd, hnd, hcont⟩ := hCyc
    have hz2 : nd.ID ∈ reachPos nodes nodes.length nd.ID := List.elem_iff.1 hcont
    obtain ⟨k, hk1, hp⟩ := reachPos_depPath hz2
    have hzmem : nd.ID ∈ rest.flatten := hperm.mem_iff.2 (mem_ids.2 ⟨nd, hnd, rfl⟩)
    rw [List.mem_flatten] at hzmem
    obtain ⟨lvl, hlvl, hzl⟩ := hzmem
    obtain ⟨i0, hi0, hieq⟩ := List.mem_iff_getElem.1 hlvl
    have hzi : nd.ID ∈ rest[i0] := by
      rw [hieq]
      exact hzl
    have hno : ∀ i, ∀ hi : i < rest.length, nd.ID ∉ rest[i] := by
      intro i
      induction i using Nat.strong_induction_on with
      | _ i ihi =>
        intro hi hin
        obtain ⟨j, hj, hji, hj2⟩ := depPath_level_lt hfinal.levelDeps hp i hi hin
        exact ihi j hji hj hj2
    exact hno i0 hi0 hzi
  rw [if_neg (by simpa using hne)]

/-- Witness for C6 at the two-node cycle a ↔ b. -/
theorem C6_witness :
    topoSortLevels cyc2 = .error cycleMsg ∧ (∀ a b, cycleMsg ≠ unknownMsg a b) :=
  C6_cycle_error cyc2 (by decide) (by decide) (by decide)


theorem find?_overwrite (k : String) (r : Result α) :
    ∀ (m : List (String × Result α)), m.any (·.1 == k) = true →
    (m.map (fun p => if p.1 == k then (k, r) else p)).find? (·.1 == k) = some (k, r) := by
  intro m
  induction m with
  | nil => intro h; simp at h
  | cons p ps ih =>
    intro h
    by_cases hp : p.1 = k
    · have hb : (p.1 == k) = true := beq_iff_eq.2 hp
      rw [List.map_cons, if_pos hb, List.find?_cons_of_pos _ (by simp)]
    · have hb : (p.1 == k) = false := beq_eq_false_iff_ne.2 hp
      have h2 : ps.any (·.1 == k) = true := by
        rw [List.any_cons, hb] at h
        simpa using h
      rw [List.map_cons, if_neg (by simp [hb]), List.find?_cons_of_neg _ (by simp [hb])]
      exact ih h2

theorem find?_not_any {k : String} {m : List (String × Result α)}
    (h : m.any (·.1 == k) = false) : m.find? (·.1 == k) = none := by
  rw [List.find?_eq_none]
  intro p hp
  rw [List.any_eq_false] at h
  simpa using h p hp

theorem lookupRes_insert_self (m : List (String × Result α)) (k : String) (r : Result α) :
    lookupRes (insertResult m k r) k = some r := by
  unfold insertResult lookupRes
  by_cases h : m.any (·.1 == k) = true
  · rw [if_pos h, find?_overwrite k r m h]
    rfl
  · rw [if_neg h, List.find?_append, find?_not_any (Bool.eq_false_iff.2 h)]
    simp

theorem find?_overwrite_other {k k2 : String} (r : Result α) (h : k ≠ k2) :
    ∀ (m : List (String × Result α)),
    (m.map (fun p => if p.1 == k2 then (k2, r) else p)).find? (·.1 == k)
      = m.find? (·.1 == k) := by
  intro m
  induction m with
  | nil => simp
  | cons p ps ih =>
    by_cases hp : p.1 = k2
    · have hb : (p.1 == k2) = true := beq_iff_eq.2 hp
      have hk2 : (k2 == k) = false := beq_eq_false_iff_ne.2 (fun he => h he.symm)
      have hpk : (p.1 == k) = false := by
        rw [hp]
        exact hk2
      rw [List.map_cons, if_pos hb, List.find?_cons_of_neg _ (by simp [hk2]),
        List.find?_cons_of_neg _ (by simp [hpk])]
      exact ih
    · have hb : (p.1 == k2) = false := beq_eq_false_iff_ne.2 hp
      rw [List.map_cons, if_neg (by simp [hb])]
      by_cases hpk : p.1 = k
      · rw [List.find?_cons_of_pos _ (by simp [hpk]), List.find?_cons_of_pos _ (by simp [hpk])]
      · rw [List.find?_cons_of_neg _ (by simp [hpk]), List.find?_cons_of_neg _ (by simp [hpk])]
        exact ih

theorem lookupRes_insert_other {m : List (String × Result α)} {k k2 : String}
    (r : Result α) (h : k ≠ k2) :
    lookupRes (insertResult m k2 r) k = lookupRes m k := by
  unfold insertResult lookupRes
  by_cases ha : m.any (·.1 == k2) = true
  · rw [if_pos ha, find?_overwrite_other r h]
  · rw [if_neg ha, List.find?_append]
    have h2 : [(k2, r)].find? (·.1 == k) = none := by
      rw [List.find?_eq_none]
      intro p hp
      have hpe : p = (k2, r) := by simpa using hp
      subst hpe
      simp only [beq_iff_eq]
      exact fun he => h he.symm
    rw [h2]
    cases m.find? (·.1 == k) <;> rfl

theorem insertResult_keys_new {m : List (String × Result α)} {k : String} {r : Result α}
    (hk : k ∉ m.map (·.1)) :
    (insertResult m k r).map (·.1) = m.map (·.1) ++ [k] := by
  unfold insertResult
  have ha : m.any (·.1 == k) = false := by
    rw [List.any_eq_false]
    intro p hp
    simp only [beq_iff_eq]
    intro he
    exact hk (by rw [← he]; exact List.mem_map_of_mem _ hp)
  rw [if_neg (by simp [ha])]
  simp

theorem depIDs_eq {nodes : List (Node α)} {z : String} {node : Node α}
    (h : findNode nodes z = some node) : depIDs nodes z = node.DependsOn := by
  unfold depIDs
  rw [h]

theorem levelFold_spec (nodes : List (Node α)) (results0 : List (String × Result α)) :
    ∀ (S : List String) (st : LevelOut α),
    (∀ z ∈ S, z ∈ ids nodes) → S.Nodup →
    (∀ z ∈ S, z ∉ st.results.map (·.1)) →
    (S.foldl (levelStep nodes results0) st).calls
        = st.calls ++ S.map (fun z => (z, depMap results0 (depIDs nodes z)))
    ∧ (S.foldl (levelStep nodes results0) st).fails
        = st.fails ++ S.filterMap (levelFail nodes results0)
    ∧ (S.foldl (levelStep nodes results0) st).results.map (·.1)
        = st.results.map (·.1) ++ S.filter (levelOk nodes results0)
    ∧ (∀ k, k ∉ S → lookupRes (S.foldl (levelStep nodes results0) st).results k
        = lookupRes st.results k)
    ∧ (∀ z ∈ S, ∀ node r, findNode nodes z = some node →
        node.Run (depMap results0 node.DependsOn) = .ok r →
        lookupRes (S.foldl (levelStep nodes results0) st).results z = some r)
    ∧ (∀ z ∈ S, (levelFail nodes results0 z).isSome = true →
        lookupRes (S.foldl (levelStep nodes results0) st).results z
        = lookupRes st.results z) := by
  intro S
  induction S with
  | nil =>
    intro st _ _ _
    refine ⟨by simp, by simp, by simp, fun k _ => rfl, by simp, by simp⟩
  | cons z S ih =>
    intro st hin hnd hdisj
    have hz : z ∈ ids nodes := hin z (List.mem_cons_self z S)
    obtain ⟨node, hfind⟩ := Option.isSome_iff_exists.1 (findNode_isSome.2 hz)
    have hznotS : z ∉ S := (List.nodup_cons.1 hnd).1
    have hdeps : depIDs nodes z = node.DependsOn := depIDs_eq hfind
    rw [List.foldl_cons]
    cases hrun : node.Run (depMap results0 node.DependsOn) with
    | error msg =>
      have hst' : levelStep nodes results0 st z =
          (⟨st.results, st.fails ++ [(z, msg)],
            st.calls ++ [(z, depMap results0 node.DependsOn)]⟩ : LevelOut α) := by
        unfold levelStep
        rw [hfind]
        dsimp only
        rw [hrun]
      have hfailz : levelFail nodes results0 z = some (z, msg) := by
        unfold levelFail
        rw [hfind]
        dsimp only
        rw [hrun]
      have hokz : levelOk nodes results0 z = false := by
        unfold levelOk
        rw [hfind]
        dsimp only
        rw [hrun]
      rw [hst']
      obtain ⟨hc, hf, hk, hs, ho, he⟩ := ih
        (⟨st.results, st.fails ++ [(z, msg)],
          st.calls ++ [(z, depMap results0 node.DependsOn)]⟩ : LevelOut α)
        (fun y hy => hin y (List.mem_cons_of_mem _ hy))
        (List.nodup_cons.1 hnd).2
        (fun y hy => hdisj y (List.mem_cons_of_mem _ hy))
      refine ⟨?_, ?_, ?_, ?_, ?_, ?_⟩
      · rw [hc]
        simp [hdeps]
      · rw [hf]
        simp only [List.filterMap_cons, hfailz]
        simp
      · rw [hk]
        simp only [List.filter_cons, hokz]
        rfl
      · intro k hk2
        have : k ∉ S := fun h2 => hk2 (List.mem_cons_of_mem _ h2)
        rw [hs k this]
      · intro y hy node2 r hfind2 hrun2
        rcases List.mem_cons.1 hy with rfl | hy2
        · rw [hfind] at hfind2
          injection hfind2 with h2
          rw [h2] at hrun
          rw [hrun] at hrun2
          exact absurd hrun2 (by simp)
        · exact ho y hy2 node2 r hfind2 hrun2
      · intro y hy hfl
        rcases List.mem_cons.1 hy with rfl | hy2
        · rw [hs y hznotS]
        · rw [he y hy2 hfl]
    | ok r =>
      have hst' : levelStep nodes results0 st z =
          (⟨insertResult st.results z r, st.fails,
            st.calls ++ [(z, depMap results0 node.DependsOn)]⟩ : LevelOut α) := by
        unfold levelStep
        rw [hfind]
        dsimp only
        rw [hrun]
      have hfailz : levelFail nodes results0 z = none := by
        unfold levelFail
        rw [hfind]
        dsimp only
        rw [hrun]
      have hokz : levelOk nodes results0 z = true := by
        unfold levelOk
        rw [hfind]
        dsimp only
        rw [hrun]
      rw [hst']
      have hznotkeys : z ∉ st.results.map (·.1) := hdisj z (List.mem_cons_self z S)
      have hkeys' : (insertResult st.results z r).map (·.1) = st.results.map (·.1) ++ [z] :=
        insertResult_keys_new hznotkeys
      obtain ⟨hc, hf, hk, hs, ho, he⟩ := ih
        (⟨insertResult st.results z r, st.fails,
          st.calls ++ [(z, depMap results0 node.DependsOn)]⟩ : LevelOut α)
        (fun y hy => hin y (List.mem_cons_of_mem _ hy))
        (List.nodup_cons.1 hnd).2
        (by
          intro y hy
          simp only [hkeys', List.mem_append, List.mem_singleton]
          rintro (h2 | rfl)
          · exact hdisj y (List.mem_cons_of_mem _ hy) h2
          · exact hznotS hy)
      refine ⟨?_, ?_, ?_, ?_, ?_, ?_⟩
      · rw [hc]
        simp [hdeps]
      · rw [hf]
        simp only [List.filterMap_cons, hfailz]
      · rw [hk, hkeys']
        simp only [List.filter_cons, hokz]
        simp
      · intro k hk2
        have hkS : k ∉ S := fun h2 => hk2 (List.mem_cons_of_mem _ h2)
        have hkz : k ≠ z := fun h2 => hk2 (h2 ▸ List.mem_cons_self z S)
        rw [hs k hkS]
        exact lookupRes_insert_other r hkz
      · intro y hy node2 r2 hfind2 hrun2
        rcases List.mem_cons.1 hy with rfl | hy2
        · rw [hfind] at hfind2
          injection hfind2 with h2
          rw [h2] at hrun
          rw [hrun] at hrun2
          injection hrun2 with h3
          rw [hs y hznotS, ← h3]
          exact lookupRes_insert_self st.results y r
        · exact ho y hy2 node2 r2 hfind2 hrun2
      · intro y hy hfl
        rcases List.mem_cons.1 hy with rfl | hy2
        · rw [hfailz] at hfl
          exact absurd hfl (by simp)
        · rw [he y hy2 hfl]
          exact lookupRes_insert_other r (fun h2 => hznotS (h2 ▸ hy2))

theorem sortStrings_perm (l : List String) : (sortStrings l).Perm l :=
  List.perm_insertionSort _ l

theorem mem_sortStrings {l : List String} {z : String} : z ∈ sortStrings l ↔ z ∈ l :=
  (sortStrings_perm l).mem_iff

theorem sortStrings_sorted (l : List String) : (sortStrings l).Sorted (· ≤ ·) :=
  List.sorted_insertionSort _ l

theorem flatten_map_sort_perm :
    ∀ Ls : List (List String), ((Ls.map sortStrings).flatten).Perm Ls.flatten := by
  intro Ls
  induction Ls with
  | nil => simp
  | cons L rest ih => simpa using (sortStrings_perm L).append ih

theorem runLevelLog_spec {nodes : List (Node α)} {results0 : List (String × Result α)}
    {level : List String}
    (hin : ∀ z ∈ level, z ∈ ids nodes) (hnd : level.Nodup)
    (hdisj : ∀ z ∈ level, z ∉ results0.map (·.1)) :
    (runLevelLog nodes results0 level).calls
        = (sortStrings level).map (fun z => (z, depMap results0 (depIDs nodes z)))
    ∧ (runLevelLog nodes results0 level).fails
        = (sortStrings level).filterMap (levelFail nodes results0)
    ∧ (runLevelLog nodes results0 level).results.map (·.1)
        = results0.map (·.1) ++ (sortStrings level).filter (levelOk nodes results0)
    ∧ (∀ k, k ∉ level → lookupRes (runLevelLog nodes results0 level).results k
        = lookupRes results0 k)
    ∧ (∀ z ∈ level, ∀ node r, findNode nodes z = some node →
        node.Run (depMap results0 node.DependsOn) = .ok r →
        lookupRes (runLevelLog nodes results0 level).results z = some r)
    ∧ (∀ z ∈ level, (levelFail nodes results0 z).isSome = true →
        lookupRes (runLevelLog nodes results0 level).results z = lookupRes results0 z) := by
  have hin' : ∀ z ∈ sortStrings level, z ∈ ids nodes :=
    fun z hz => hin z (mem_sortStrings.1 hz)
  have hnd' : (sortStrings level).Nodup := (sortStrings_perm level).nodup_iff.2 hnd
  have hdisj' : ∀ z ∈ sortStrings level, z ∉ results0.map (·.1) :=
    fun z hz => hdisj z (mem_sortStrings.1 hz)
  obtain ⟨hc, hf, hk, hs, ho, he⟩ :=
    levelFold_spec nodes results0 (sortStrings level) ⟨results0, [], []⟩ hin' hnd' hdisj'
  refine ⟨by simpa using hc, by simpa using hf, by simpa using hk, ?_, ?_, ?_⟩
  · intro k hk2
    exact hs k (fun h2 => hk2 (mem_sortStrings.1 h2))
  · intro z hz node r hfind hrun
    exact ho z (mem_sortStrings.2 hz) node r hfind hrun
  · intro z hz hfl
    exact he z (mem_sortStrings.2 hz) hfl

theorem runLevelsLog_cons_nil {nodes : List (Node α)} {sched : Sched}
    {L : List String} {rest : List (List String)} {results0 : List (String × Result α)}
    (h : sched (runLevelLog nodes results0 L).fails = []) :
    runLevelsLog nodes sched (L :: rest) results0 =
      ⟨(runLevelsLog nodes sched rest (runLevelLog nodes results0 L).results).results,
       (runLevelLog nodes results0 L).calls
         ++ (runLevelsLog nodes sched rest (runLevelLog nodes results0 L).results).calls,
       (runLevelsLog nodes sched rest (runLevelLog nodes results0 L).results).outcome⟩ := by
  conv_lhs => unfold runLevelsLog
  dsimp only
  rw [h]

theorem runLevelsLog_cons_err {nodes : List (Node α)} {sched : Sched}
    {L : List String} {rest : List (List String)} {results0 : List (String × Result α)}
    {fid fmsg : String} {tl : List (String × String)}
    (h : sched (runLevelLog nodes results0 L).fails = (fid, fmsg) :: tl) :
    runLevelsLog nodes sched (L :: rest) results0 =
      ⟨(runLevelLog nodes results0 L).results, (runLevelLog nodes results0 L).calls,
       .error (failMsg fid fmsg)⟩ := by
  conv_lhs => unfold runLevelsLog
  dsimp only
  rw [h]

theorem levelFail_none_of_ok {nodes : List (Node α)}
    {results0 : List (String × Result α)} {z : String} {node : Node α}
    (hfind : findNode nodes z = some node)
    (hok : ∃ r, node.Run (depMap results0 node.DependsOn) = .ok r) :
    levelFail nodes results0 z = none := by
  obtain ⟨r, hr⟩ := hok
  unfold levelFail
  rw [hfind]
  dsimp only
  rw [hr]

theorem levelOk_of_ok {nodes : List (Node α)}
    {results0 : List (String × Result α)} {z : String} {node : Node α}
    (hfind : findNode nodes z = some node)
    (hok : ∃ r, node.Run (depMap results0 node.DependsOn) = .ok r) :
    levelOk nodes results0 z = true := by
  obtain ⟨r, hr⟩ := hok
  unfold levelOk
  rw [hfind]
  dsimp only
  rw [hr]

theorem findNode_mem {nodes : List (Node α)} {z : String} {node : Node α}
    (hfind : findNode nodes z = some node) : node ∈ nodes := by
  unfold findNode at hfind
  exact List.mem_of_find?_eq_some hfind

theorem runLevels_ok (nodes : List (Node α)) (sched : Sched)
    (hsched : ∀ l, (sched l).Perm l)
    (hsucc : ∀ n ∈ nodes, ∀ dm, ∃ r, n.Run dm = .ok r) :
    ∀ (Ls : List (List String)) (results0 : List (String × Result α)),
    (results0.map (·.1) ++ Ls.flatten).Nodup →
    (∀ z ∈ Ls.flatten, z ∈ ids nodes) →
    (∀ i (hi : i < Ls.length), ∀ z ∈ Ls[i], ∀ d ∈ depIDs nodes z,
        d ∈ results0.map (·.1) ++ (Ls.take i).flatten) →
    (runLevelsLog nodes sched Ls results0).outcome = .ok ()
    ∧ (runLevelsLog nodes sched Ls results0).results.map (·.1)
        = results0.map (·.1) ++ (Ls.map sortStrings).flatten
    ∧ (∀ k, k ∉ Ls.flatten → lookupRes (runLevelsLog nodes sched Ls results0).results k
        = lookupRes results0 k)
    ∧ (runLevelsLog nodes sched Ls results0).calls.map (·.1) = (Ls.map sortStrings).flatten
    ∧ (∀ z dm, (z, dm) ∈ (runLevelsLog nodes sched Ls results0).calls →
        ∃ node, findNode nodes z = some node ∧
          dm = depMap (runLevelsLog nodes sched Ls results0).results node.DependsOn) := by
  intro Ls
  induction Ls with
  | nil =>
    intro results0 _ _ _
    refine ⟨rfl, by simp [runLevelsLog], fun k _ => rfl, by simp [runLevelsLog], ?_⟩
    intro z dm hzdm
    exact absurd hzdm (by simp [runLevelsLog])
  | cons L rest ih =>
    intro results0 hnd hids hdeps
    have hLin : ∀ z ∈ L, z ∈ ids nodes := by
      intro z hz
      exact hids z (by simp [hz])
    have hndflat : (results0.map (·.1) ++ (L ++ rest.flatten)).Nodup := by
      simpa using hnd
    have hdisjKeyFlat : ∀ d ∈ results0.map (·.1), d ∉ L ++ rest.flatten :=
      fun d hd => List.disjoint_of_nodup_append hndflat hd
    have hLnd : L.Nodup := by
      have := (List.nodup_append.1 hndflat).2.1
      exact (List.nodup_append.1 this).1
    have hLdisj : ∀ z ∈ L, z ∉ results0.map (·.1) := by
      intro z hz hz2
      exact hdisjKeyFlat z hz2 (by simp [hz])
    obtain ⟨hc, hf, hk, hs, ho, he⟩ := runLevelLog_spec hLin hLnd hLdisj
    have hallok : ∀ z ∈ L, ∃ node, findNode nodes z = some node ∧
        ∃ r, node.Run (depMap results0 node.DependsOn) = .ok r := by
      intro z hz
      obtain ⟨node, hfind⟩ := Option.isSome_iff_exists.1 (findNode_isSome.2 (hLin z hz))
      exact ⟨node, hfind, hsucc node (findNode_mem hfind) _⟩
    have hfails : (runLevelLog nodes results0 L).fails = [] := by
      rw [hf, List.filterMap_eq_nil]
      intro z hz
      obtain ⟨node, hfind, hok⟩ := hallok z (mem_sortStrings.1 hz)
      exact levelFail_none_of_ok hfind hok
    have hsnil : sched (runLevelLog nodes results0 L).fails = [] := by
      rw [hfails]
      exact List.Perm.eq_nil (hsched [])
    rw [runLevelsLog_cons_nil hsnil]
    have hkeys1 : (runLevelLog nodes results0 L).results.map (·.1)
        = results0.map (·.1) ++ sortStrings L := by
      rw [hk]
      congr 1
      rw [List.filter_eq_self]
      intro z hz
      obtain ⟨node, hfind, hok⟩ := hallok z (mem_sortStrings.1 hz)
      exact levelOk_of_ok hfind hok
    have hnd2 : ((runLevelLog nodes results0 L).results.map (·.1) ++ rest.flatten).Nodup := by
      rw [hkeys1, List.append_assoc]
      refine List.Perm.nodup ?_ hndflat
      exact List.Perm.append_left _ ((sortStrings_perm L).symm.append_right _)
    have hids2 : ∀ z ∈ rest.flatten, z ∈ ids nodes := by
      intro z hz
      exact hids z (by simp [hz])
    have hdeps2 : ∀ i (hi : i < rest.length), ∀ z ∈ rest[i], ∀ d ∈ depIDs nodes z,
        d ∈ (runLevelLog nodes results0 L).results.map (·.1) ++ (rest.take i).flatten := by
      intro i hi z hz d hd
      have := hdeps (i + 1) (by simpa using Nat.succ_lt_succ hi) z (by simpa using hz) d hd
      rw [hkeys1]
      simp only [List.take_succ_cons, List.flatten_cons, List.mem_append] at this ⊢
      rcases this with h2 | h2 | h2
      · exact Or.inl (Or.inl h2)
      · exact Or.inl (Or.inr (mem_sortStrings.2 h2))
      · exact Or.inr h2
    obtain ⟨ih1, ih2, ih3, ih4, ih5⟩ := ih _ hnd2 hids2 hdeps2
    have hstab : ∀ d, d ∉ L ++ rest.flatten →
        lookupRes (runLevelsLog nodes sched rest (runLevelLog nodes results0 L).results).results d
          = lookupRes results0 d := by
      intro d hd
      rw [ih3 d (fun h2 => hd (by simp [h2])), hs d (fun h2 => hd (by simp [h2]))]
    refine ⟨ih1, ?_, ?_, ?_, ?_⟩
    · rw [ih2, hkeys1]
      simp [List.append_assoc]
    · intro k hk2
      exact hstab k (by simpa using hk2)
    · rw [List.map_append, ih4, hc, List.map_map]
      have hid : List.map ((fun (x : String × (String → Option (Result α))) => x.1)
          ∘ fun z => (z, depMap results0 (depIDs nodes z))) (sortStrings L) = sortStrings L := by
        show List.map (fun z => z) (sortStrings L) = sortStrings L
        simp
      rw [hid]
      simp
    · intro z dm hzdm
      rcases List.mem_append.1 hzdm with hmem | hmem
      · rw [hc] at hmem
        obtain ⟨z2, hz2, heq⟩ := List.mem_map.1 hmem
        injection heq with he1 he2
        rw [he1] at hz2 he2
        have hzL : z ∈ L := mem_sortStrings.1 hz2
        obtain ⟨node, hfind, _⟩ := hallok z hzL
        refine ⟨node, hfind, ?_⟩
        rw [← he2, depIDs_eq hfind]
        funext d
        unfold depMap
        by_cases hdin : d ∈ node.DependsOn
        · rw [if_pos hdin, if_pos hdin]
          have hd0 : d ∈ results0.map (·.1) := by
            have := hdeps 0 (by simp) z (by simpa using hzL) d (by rwa [depIDs_eq hfind])
            simpa using this
          rw [hstab d (hdisjKeyFlat d hd0)]
        · rw [if_neg hdin, if_neg hdin]
      · obtain ⟨node, hfind, hdm⟩ := ih5 z dm hmem
        exact ⟨node, hfind, hdm⟩

theorem levelFail_shape {nodes : List (Node α)} {results0 : List (String × Result α)}
    {z : String} {p : String × String} (h : levelFail nodes results0 z = some p) :
    p.1 = z ∧ ∃ node, findNode nodes z = some node ∧
      node.Run (depMap results0 node.DependsOn) = .error p.2 := by
  unfold levelFail at h
  cases hfind : findNode nodes z with
  | none =>
    rw [hfind] at h
    exact absurd h (by simp)
  | some node =>
    rw [hfind] at h
    dsimp only at h
    cases hrun : node.Run (depMap results0 node.DependsOn) with
    | error m =>
      rw [hrun] at h
      injection h with h2
      constructor
      · rw [← h2]
      · refine ⟨node, rfl, ?_⟩
        rw [hrun, ← h2]
    | ok r =>
      rw [hrun] at h
      exact absurd h (by simp)

theorem fails_map_fst_sublist (nodes : List (Node α))
    (res : List (String × Result α)) :
    ∀ S : List String, ((S.filterMap (levelFail nodes res)).map (·.1)).Sublist S := by
  intro S
  induction S with
  | nil => simp
  | cons z S ih =>
    rw [List.filterMap_cons]
    cases hf : levelFail nodes res z with
    | none => exact ih.cons z
    | some p =>
      have hp1 : p.1 = z := (levelFail_shape hf).1
      rw [List.map_cons, hp1]
      exact ih.cons₂ z

theorem levelOk_of_fail_none {nodes : List (Node α)}
    {results0 : List (String × Result α)} {z : String}
    (hz : z ∈ ids nodes) (h : levelFail nodes results0 z = none) :
    levelOk nodes results0 z = true := by
  obtain ⟨node, hfind⟩ := Option.isSome_iff_exists.1 (findNode_isSome.2 hz)
  unfold levelFail at h
  unfold levelOk
  rw [hfind] at h ⊢
  dsimp only at h ⊢
  cases hrun : node.Run (depMap results0 node.DependsOn) with
  | error m =>
    rw [hrun] at h
    exact absurd h (by simp)
  | ok r => rfl

theorem run_ok_of_fail_none {nodes : List (Node α)}
    {results0 : List (String × Result α)} {z : String} {node : Node α}
    (hfind : findNode nodes z = some node) (h : levelFail nodes results0 z = none) :
    ∃ r, node.Run (depMap results0 node.DependsOn) = .ok r := by
  unfold levelFail at h
  rw [hfind] at h
  dsimp only at h
  cases hrun : node.Run (depMap results0 node.DependsOn) with
  | error m =>
    rw [hrun] at h
    exact absurd h (by simp)
  | ok r => exact ⟨r, rfl⟩

theorem runLevels_err (nodes : List (Node α)) (sched : Sched)
    (hsched : ∀ l, (sched l).Perm l) :
    ∀ (Ls : List (List String)) (results0 : List (String × Result α)) (msg : String),
    (results0.map (·.1) ++ Ls.flatten).Nodup →
    (∀ z ∈ Ls.flatten, z ∈ ids nodes) →
    (∀ i (hi : i < Ls.length), ∀ z ∈ Ls[i], ∀ d ∈ depIDs nodes z,
        d ∈ results0.map (·.1) ++ (Ls.take i).flatten) →
    (runLevelsLog nodes sched Ls results0).outcome = .error msg →
    ∃ Lv, ∃ hL : Lv < Ls.length, ∃ resL fid fmsg tl,
      sched ((sortStrings Ls[Lv]).filterMap (levelFail nodes resL)) = (fid, fmsg) :: tl
      ∧ msg = failMsg fid fmsg
      ∧ fid ∈ Ls[Lv]
      ∧ (∃ node, findNode nodes fid = some node ∧
          node.Run (depMap resL node.DependsOn) = .error fmsg ∧
          (fid, depMap resL node.DependsOn) ∈ (runLevelsLog nodes sched Ls results0).calls)
      ∧ (∀ g gm, (g, gm) ∈ (sortStrings Ls[Lv]).filterMap (levelFail nodes resL) →
          g ∈ Ls[Lv] ∧ ∃ node2, findNode nodes g = some node2 ∧
            node2.Run (depMap resL node2.DependsOn) = .error gm)
      ∧ (runLevelsLog nodes sched Ls results0).calls.map (·.1)
          = ((Ls.take (Lv + 1)).map sortStrings).flatten
      ∧ (∀ z dm node2 r, (z, dm) ∈ (runLevelsLog nodes sched Ls results0).calls →
          findNode nodes z = some node2 → node2.Run dm = .ok r →
          lookupRes (runLevelsLog nodes sched Ls results0).results z = some r)
      ∧ (∀ z ∈ (Ls.take Lv).flatten, ∃ dm node2 r,
          (z, dm) ∈ (runLevelsLog nodes sched Ls results0).calls ∧
          findNode nodes z = some node2 ∧ node2.Run dm = .ok r)
      ∧ (∀ k, k ∉ Ls.flatten →
          lookupRes (runLevelsLog nodes sched Ls results0).results k
            = lookupRes results0 k) := by
  intro Ls
  induction Ls with
  | nil =>
    intro results0 msg _ _ _ hout
    exact absurd hout (by simp [runLevelsLog])
  | cons L rest ih =>
    intro results0 msg hnd hids hdeps hout
    have hLin : ∀ z ∈ L, z ∈ ids nodes := by
      intro z hz
      exact hids z (by simp [hz])
    have hndflat : (results0.map (·.1) ++ (L ++ rest.flatten)).Nodup := by
      simpa using hnd
    have hdisjKeyFlat : ∀ d ∈ results0.map (·.1), d ∉ L ++ rest.flatten :=
      fun d hd => List.disjoint_of_nodup_append hndflat hd
    have hLrestdisj : ∀ z ∈ L, z ∉ rest.flatten := by
      have h2 := (List.nodup_append.1 hndflat).2.1
      exact fun z hz => List.disjoint_of_nodup_append h2 hz
    have hLnd : L.Nodup := by
      have := (List.nodup_append.1 hndflat).2.1
      exact (List.nodup_append.1 this).1
    have hLdisj : ∀ z ∈ L, z ∉ results0.map (·.1) := by
      intro z hz hz2
      exact hdisjKeyFlat z hz2 (by simp [hz])
    obtain ⟨hc, hf, hk, hs, ho, he⟩ := runLevelLog_spec hLin hLnd hLdisj
    cases hsf : sched (runLevelLog nodes results0 L).fails with
    | nil =>
      rw [runLevelsLog_cons_nil hsf] at hout
      dsimp only at hout
      have hfails : (runLevelLog nodes results0 L).fails = [] := by
        have hp := hsched (runLevelLog nodes results0 L).fails
        rw [hsf] at hp
        exact (hp.symm.eq_nil)
      have hallnone : ∀ z ∈ L, levelFail nodes results0 z = none := by
        intro z hz
        rw [hf] at hfails
        rw [List.filterMap_eq_nil] at hfails
        exact hfails z (mem_sortStrings.2 hz)
      have hallok : ∀ z ∈ L, ∃ node, findNode nodes z = some node ∧
          ∃ r, node.Run (depMap results0 node.DependsOn) = .ok r := by
        intro z hz
        obtain ⟨node, hfind⟩ := Option.isSome_iff_exists.1 (findNode_isSome.2 (hLin z hz))
        exact ⟨node, hfind, run_ok_of_fail_none hfind (hallnone z hz)⟩
      have hkeys1 : (runLevelLog nodes results0 L).results.map (·.1)
          = results0.map (·.1) ++ sortStrings L := by
        rw [hk]
        congr 1
        rw [List.filter_eq_self]
        intro z hz
        exact levelOk_of_fail_none (hLin z (mem_sortStrings.1 hz))
          (hallnone z (mem_sortStrings.1 hz))
      have hnd2 : ((runLevelLog nodes results0 L).results.map (·.1) ++ rest.flatten).Nodup := by
        rw [hkeys1, List.append_assoc]
        refine List.Perm.nodup ?_ hndflat
        exact List.Perm.append_left _ ((sortStrings_perm L).symm.append_right _)
      have hids2 : ∀ z ∈ rest.flatten, z ∈ ids nodes := by
        intro z hz
        exact hids z (by simp [hz])
      have hdeps2 : ∀ i (hi : i < rest.length), ∀ z ∈ rest[i], ∀ d ∈ depIDs nodes z,
          d ∈ (runLevelLog nodes results0 L).results.map (·.1) ++ (rest.take i).flatten := by
        intro i hi z hz d hd
        have := hdeps (i + 1) (by simpa using Nat.succ_lt_succ hi) z (by simpa using hz) d hd
        rw [hkeys1]
        simp only [List.take_succ_cons, List.flatten_cons, List.mem_append] at this ⊢
        rcases this with h2 | h2 | h2
        · exact Or.inl (Or.inl h2)
        · exact Or.inl (Or.inr (mem_sortStrings.2 h2))
        · exact Or.inr h2
      obtain ⟨Lv, hLv, resL, fid, fmsg, tl, ihA, ihB, ihC, ihD, ihE, ihF, ihG, ihH, ihI⟩ :=
        ih _ msg hnd2 hids2 hdeps2 hout
      refine ⟨Lv + 1, by simpa using Nat.succ_lt_succ hLv, resL, fid, fmsg, tl,
        ?_, ihB, ?_, ?_, ?_, ?_, ?_, ?_, ?_⟩
      · simpa using ihA
      · simpa using ihC
      · obtain ⟨node, h1, h2, h3⟩ := ihD
        refine ⟨node, h1, h2, ?_⟩
        rw [runLevelsLog_cons_nil hsf]
        exact List.mem_append.2 (Or.inr h3)
      · simpa using ihE
      · rw [runLevelsLog_cons_nil hsf]
        dsimp only
        rw [List.map_append, ihF, hc, List.map_map]
        have hid : List.map ((fun (x : String × (String → Option (Result α))) => x.1)
            ∘ fun z => (z, depMap results0 (depIDs nodes z))) (sortStrings L)
              = sortStrings L := by
          show List.map (fun z => z) (sortStrings L) = sortStrings L
          simp
        rw [hid]
        simp
      · intro z dm node2 r hzdm hfind2 hrun2
        rw [runLevelsLog_cons_nil hsf] at hzdm ⊢
        dsimp only at hzdm ⊢
        rcases List.mem_append.1 hzdm with hmem | hmem
        · rw [hc] at hmem
          obtain ⟨z2, hz2, heq⟩ := List.mem_map.1 hmem
          injection heq with he1 he2
          rw [he1] at hz2 he2
          have hzL : z ∈ L := mem_sortStrings.1 hz2
          have hdm : dm = depMap results0 node2.DependsOn := by
            rw [← he2, depIDs_eq hfind2]
          have hok2 : lookupRes (runLevelLog nodes results0 L).results z = some r := by
            refine ho z hzL node2 r hfind2 ?_
            rw [← hdm]
            exact hrun2
          rw [ihI z (hLrestdisj z hzL), hok2]
        · exact ihG z dm node2 r hmem hfind2 hrun2
      · intro z hz
        simp only [List.take_succ_cons, List.flatten_cons, List.mem_append] at hz
        rcases hz with hzL | hzR
        · obtain ⟨node, hfind, r, hrun⟩ := hallok z hzL
          refine ⟨depMap results0 node.DependsOn, node, r, ?_, hfind, hrun⟩
          rw [runLevelsLog_cons_nil hsf]
          dsimp only
          refine List.mem_append.2 (Or.inl ?_)
          rw [hc]
          refine List.mem_map.2 ⟨z, mem_sortStrings.2 hzL, ?_⟩
          simp only [depIDs_eq hfind]
        · obtain ⟨dm, node2, r, hcall, hfind2, hrun2⟩ := ihH z hzR
          refine ⟨dm, node2, r, ?_, hfind2, hrun2⟩
          rw [runLevelsLog_cons_nil hsf]
          exact List.mem_append.2 (Or.inr hcall)
      · intro k hk2
        rw [runLevelsLog_cons_nil hsf]
        dsimp only
        rw [ihI k (fun h2 => hk2 (by simp [h2])), hs k (fun h2 => hk2 (by simp [h2]))]
    | cons pr tl =>
      rw [runLevelsLog_cons_err (by rw [hsf])] at hout
      dsimp only at hout
      injection hout with hmsg
      have hmem0 : pr ∈ (runLevelLog nodes results0 L).fails := by
        have hp := hsched (runLevelLog nodes results0 L).fails
        rw [hsf] at hp
        exact hp.mem_iff.1 (List.mem_cons_self pr tl)
      rw [hf] at hmem0
      obtain ⟨a, ha, hfa⟩ := List.mem_filterMap.1 hmem0
      obtain ⟨hfst, node, hfind, hrun⟩ := levelFail_shape hfa
      have hfidL : pr.1 ∈ L := by
        rw [hfst]
        exact mem_sortStrings.1 ha
      refine ⟨0, by simp, results0, pr.1, pr.2, tl, ?_, ?_, by simpa using hfidL,
        ?_, ?_, ?_, ?_, ?_, ?_⟩
      · simp only [List.getElem_cons_zero]
        rw [← hf, hsf]
      · rw [← hmsg]
      · rw [← hfst] at hfind
        refine ⟨node, hfind, hrun, ?_⟩
        rw [runLevelsLog_cons_err (by rw [hsf])]
        dsimp only
        rw [hc]
        refine List.mem_map.2 ⟨pr.1, ?_, ?_⟩
        · rw [hfst]
          exact ha
        · simp only [depIDs_eq hfind]
      · intro g gm hg
        simp only [List.getElem_cons_zero] at hg ⊢
        obtain ⟨a2, ha2, hfa2⟩ := List.mem_filterMap.1 hg
        obtain ⟨hfst2, node2, hfind2, hrun2⟩ := levelFail_shape hfa2
        refine ⟨?_, node2, ?_, ?_⟩
        · rw [← hfst2] at ha2
          exact mem_sortStrings.1 ha2
        · rw [← hfst2] at hfind2
          exact hfind2
        · exact hrun2
      · rw [runLevelsLog_cons_err (by rw [hsf])]
        dsimp only
        rw [hc, List.map_map]
        have hid : List.map ((fun (x : String × (String → Option (Result α))) => x.1)
            ∘ fun z => (z, depMap results0 (depIDs nodes z))) (sortStrings L)
              = sortStrings L := by
          show List.map (fun z => z) (sortStrings L) = sortStrings L
          simp
        rw [hid]
        simp
      · intro z dm node2 r hzdm hfind2 hrun2
        rw [runLevelsLog_cons_err (by rw [hsf])] at hzdm ⊢
        dsimp only at hzdm ⊢
        rw [hc] at hzdm
        obtain ⟨z2, hz2, heq⟩ := List.mem_map.1 hzdm
        injection heq with he1 he2
        rw [he1] at hz2 he2
        have hzL : z ∈ L := mem_sortStrings.1 hz2
        refine ho z hzL node2 r hfind2 ?_
        have hdm : dm = depMap results0 node2.DependsOn := by
          rw [← he2, depIDs_eq hfind2]
        rw [← hdm]
        exact hrun2
      · intro z hz
        exact absurd hz (by simp)
      · intro k hk2
        rw [runLevelsLog_cons_err (by rw [hsf])]
        dsimp only
        exact hs k (fun h2 => hk2 (by simp [h2]))


theorem runWithLog_ok {e : Engine α} {sched : Sched} {levels : List (List String)}
    (h : topoSortLevels e.nodes = .ok levels) :
    e.runWithLog sched =
      ({ e with results := (runLevelsLog e.nodes sched levels e.results).results },
       (runLevelsLog e.nodes sched levels e.results).calls,
       (runLevelsLog e.nodes sched levels e.results).outcome) := by
  unfold Engine.runWithLog
  rw [h]

/-- C2: on a well-formed acyclic engine with fresh results, when every run
function succeeds, `Run` returns nil; every node is invoked exactly once,
each with exactly its declared dependencies' results; and the final results
hold an entry for every node. -/
theorem C2_successful_run {α} (e : Engine α) (sched : Sched)
    (hsched : ∀ l, (sched l).Perm l)
    (hND : (ids e.nodes).Nodup)
    (hClosed : ∀ n ∈ e.nodes, ∀ d ∈ n.DependsOn, d ∈ ids e.nodes)
    (hAcyc : hasCycle e.nodes = false)
    (hfresh : e.results = [])
    (hsucc : ∀ n ∈ e.nodes, ∀ dm, ∃ r, n.Run dm = .ok r) :
    (e.runWithLog sched).2.2 = .ok ()
    ∧ (((e.runWithLog sched).1.Results.map (·.1))).Perm (ids e.nodes)
    ∧ (((e.runWithLog sched).2.1.map (·.1))).Perm (ids e.nodes)
    ∧ ((e.runWithLog sched).2.1.map (·.1)).Nodup
    ∧ (∀ z dm, (z, dm) ∈ (e.runWithLog sched).2.1 →
        ∃ node, findNode e.nodes z = some node ∧
          dm = depMap (e.runWithLog sched).1.Results node.DependsOn) := by
  obtain ⟨levels, hok⟩ := topo_complete hND hClosed hAcyc
  obtain ⟨hperm, hLD, _⟩ := topo_ok_spec hND hok
  have hnd0 : ((e.results.map (·.1) : List String) ++ levels.flatten).Nodup := by
    rw [hfresh]
    simpa using hperm.nodup_iff.2 hND
  have hids0 : ∀ z ∈ levels.flatten, z ∈ ids e.nodes := fun z hz => hperm.subset hz
  have hdeps0 : ∀ i (hi : i < levels.length), ∀ z ∈ levels[i], ∀ d ∈ depIDs e.nodes z,
      d ∈ e.results.map (·.1) ++ (levels.take i).flatten := by
    intro i hi z hz d hd
    exact List.mem_append.2 (Or.inr (hLD i hi z hz d hd))
  obtain ⟨h1, h2, h3, h4, h5⟩ :=
    runLevels_ok e.nodes sched hsched hsucc levels e.results hnd0 hids0 hdeps0
  rw [runWithLog_ok hok]
  dsimp only
  unfold Engine.Results
  dsimp only
  have hcperm : (((runLevelsLog e.nodes sched levels e.results).calls.map (·.1))).Perm
      (ids e.nodes) := by
    rw [h4]
    exact (flatten_map_sort_perm levels).trans hperm
  refine ⟨h1, ?_, hcperm, hcperm.nodup_iff.2 hND, h5⟩
  rw [h2, hfresh]
  simpa using (flatten_map_sort_perm levels).trans hperm

/-- Witness for C2: the diamond d ← c ← {a, b} with all-succeeding run
functions, in-spawn-order error delivery. -/
theorem C2_witness :
    ((New cat5).runWithLog id).2.2 = .ok ()
    ∧ ((((New cat5).runWithLog id).1.Results.map (·.1))).Perm (ids (New cat5).nodes)
    ∧ ((((New cat5).runWithLog id).2.1.map (·.1))).Perm (ids (New cat5).nodes)
    ∧ (((New cat5).runWithLog id).2.1.map (·.1)).Nodup
    ∧ (∀ z dm, (z, dm) ∈ ((New cat5).runWithLog id).2.1 →
        ∃ node, findNode (New cat5).nodes z = some node ∧
          dm = depMap ((New cat5).runWithLog id).1.Results node.DependsOn) :=
  C2_successful_run (New cat5) id (fun l => List.Perm.refl l) (by decide) (by decide)
    (by decide) rfl
    (by
      intro n hn dm
      simp only [New, cat5, List.mem_cons, List.not_mem_nil, or_false] at hn
      rcases hn with rfl | rfl | rfl | rfl <;> exact ⟨_, rfl⟩)

/-- C3: if planning succeeded but `Run` returns an error, the error wraps
some node's run-function failure as `node <id> failed: <err>`; that node was
invoked and its run function returned exactly that error; exactly the levels
up to and including the failing node's level were started (no later level
ran); every successful invocation's result is retained in the final results;
and every node of the levels before the failing one ran successfully. -/
theorem C3_failure_semantics {α} (e : Engine α) (sched : Sched)
    (hsched : ∀ l, (sched l).Perm l)
    (hND : (ids e.nodes).Nodup)
    (hfresh : e.results = [])
    (levels : List (List String)) (hplan : topoSortLevels e.nodes = .ok levels)
    (msg : String) (hfail : (e.runWithLog sched).2.2 = .error msg) :
    ∃ Lv, ∃ hL : Lv < levels.length, ∃ fid fmsg dm node,
      msg = failMsg fid fmsg
      ∧ fid ∈ levels[Lv]
      ∧ (fid, dm) ∈ (e.runWithLog sched).2.1
      ∧ findNode e.nodes fid = some node
      ∧ node.Run dm = .error fmsg
      ∧ (e.runWithLog sched).2.1.map (·.1)
          = ((levels.take (Lv + 1)).map sortStrings).flatten
      ∧ (∀ z dm2 node2 r, (z, dm2) ∈ (e.runWithLog sched).2.1 →
          findNode e.nodes z = some node2 → node2.Run dm2 = .ok r →
          lookupRes (e.runWithLog sched).1.Results z = some r)
      ∧ (∀ z ∈ (levels.take Lv).flatten, ∃ dm2 node2 r,
          (z, dm2) ∈ (e.runWithLog sched).2.1 ∧ findNode e.nodes z = some node2
          ∧ node2.Run dm2 = .ok r) := by
  obtain ⟨hperm, hLD, _⟩ := topo_ok_spec hND hplan
  have hnd0 : ((e.results.map (·.1) : List String) ++ levels.flatten).Nodup := by
    rw [hfresh]
    simpa using hperm.nodup_iff.2 hND
  have hids0 : ∀ z ∈ levels.flatten, z ∈ ids e.nodes := fun z hz => hperm.subset hz
  have hdeps0 : ∀ i (hi : i < levels.length), ∀ z ∈ levels[i], ∀ d ∈ depIDs e.nodes z,
      d ∈ e.results.map (·.1) ++ (levels.take i).flatten := by
    intro i hi z hz d hd
    exact List.mem_append.2 (Or.inr (hLD i hi z hz d hd))
  rw [runWithLog_ok hplan] at hfail
  dsimp only at hfail
  obtain ⟨Lv, hLv, resL, fid, fmsg, tl, _, hB, hC, hD, _, hF, hG, hH, _⟩ :=
    runLevels_err e.nodes sched hsched levels e.results msg hnd0 hids0 hdeps0 hfail
  obtain ⟨node, hfind, hrun, hcall⟩ := hD
  rw [runWithLog_ok hplan]
  dsimp only
  unfold Engine.Results
  dsimp only
  exact ⟨Lv, hLv, fid, fmsg, depMap resL node.DependsOn, node,
    hB, hC, hcall, hfind, hrun, hF, hG, hH⟩

/-- Witness for C3: node a fails at level 0, sibling b succeeds, z (level 1)
depends on a and is never started. -/
theorem C3_witness :
    ∃ Lv, ∃ hL : Lv < [["a", "b"], ["z"]].length, ∃ fid fmsg dm node,
      "node a failed: boom" = failMsg fid fmsg
      ∧ fid ∈ [["a", "b"], ["z"]][Lv]
      ∧ (fid, dm) ∈ ((New catC3).runWithLog id).2.1
      ∧ findNode (New catC3).nodes fid = some node
      ∧ node.Run dm = .error fmsg
      ∧ ((New catC3).runWithLog id).2.1.map (·.1)
          = (([["a", "b"], ["z"]].take (Lv + 1)).map sortStrings).flatten
      ∧ (∀ z dm2 node2 r, (z, dm2) ∈ ((New catC3).runWithLog id).2.1 →
          findNode (New catC3).nodes z = some node2 → node2.Run dm2 = .ok r →
          lookupRes ((New catC3).runWithLog id).1.Results z = some r)
      ∧ (∀ z ∈ ([["a", "b"], ["z"]].take Lv).flatten, ∃ dm2 node2 r,
          (z, dm2) ∈ ((New catC3).runWithLog id).2.1
          ∧ findNode (New catC3).nodes z = some node2
          ∧ node2.Run dm2 = .ok r) :=
  C3_failure_semantics (New catC3) id (fun l => List.Perm.refl l) (by decide) rfl
    [["a", "b"], ["z"]] (by rfl) "node a failed: boom" (by rfl)

/-- C4 (amended): the error `Run` returns on a failing level is the first
element the channel delivers under the goroutine completion order `sched` --
the head of `sched` applied to the level's failure list -- so which failing
node is reported depends on the scheduling, not deterministically on the
lowest ID.  Under the in-spawn-order schedule (`sched = id`) it is the
failing node of that level with the lexicographically least ID, because the
failure list inherits the sorted spawn order. -/
theorem C4_amended {α} (e : Engine α) (sched : Sched)
    (hsched : ∀ l, (sched l).Perm l)
    (hND : (ids e.nodes).Nodup)
    (hfresh : e.results = [])
    (levels : List (List String)) (hplan : topoSortLevels e.nodes = .ok levels)
    (msg : String) (hfail : (e.runWithLog sched).2.2 = .error msg) :
    ∃ Lv, ∃ hL : Lv < levels.length, ∃ resL failsL fid fmsg tl,
      failsL = (sortStrings levels[Lv]).filterMap (levelFail e.nodes resL)
      ∧ sched failsL = (fid, fmsg) :: tl
      ∧ msg = failMsg fid fmsg
      ∧ fid ∈ levels[Lv]
      ∧ (∀ g gm, (g, gm) ∈ failsL → g ∈ levels[Lv] ∧ ∃ node2,
          findNode e.nodes g = some node2 ∧
            node2.Run (depMap resL node2.DependsOn) = .error gm)
      ∧ (sched = id → ∀ g gm, (g, gm) ∈ failsL → fid ≤ g) := by
  obtain ⟨hperm, hLD, _⟩ := topo_ok_spec hND hplan
  have hnd0 : ((e.results.map (·.1) : List String) ++ levels.flatten).Nodup := by
    rw [hfresh]
    simpa using hperm.nodup_iff.2 hND
  have hids0 : ∀ z ∈ levels.flatten, z ∈ ids e.nodes := fun z hz => hperm.subset hz
  have hdeps0 : ∀ i (hi : i < levels.length), ∀ z ∈ levels[i], ∀ d ∈ depIDs e.nodes z,
      d ∈ e.results.map (·.1) ++ (levels.take i).flatten := by
    intro i hi z hz d hd
    exact List.mem_append.2 (Or.inr (hLD i hi z hz d hd))
  rw [runWithLog_ok hplan] at hfail
  dsimp only at hfail
  obtain ⟨Lv, hLv, resL, fid, fmsg, tl, hA, hB, hC, _, hE, _, _, _, _⟩ :=
    runLevels_err e.nodes sched hsched levels e.results msg hnd0 hids0 hdeps0 hfail
  refine ⟨Lv, hLv, resL, (sortStrings levels[Lv]).filterMap (levelFail e.nodes resL),
    fid, fmsg, tl, rfl, hA, hB, hC, hE, ?_⟩
  intro hid g gm hg
  subst hid
  have hfl : (sortStrings levels[Lv]).filterMap (levelFail e.nodes resL)
      = (fid, fmsg) :: tl := hA
  have hsorted : (((sortStrings levels[Lv]).filterMap (levelFail e.nodes resL)).map
      (·.1)).Sorted (· ≤ ·) :=
    List.Pairwise.sublist (fails_map_fst_sublist e.nodes resL (sortStrings levels[Lv]))
      (sortStrings_sorted levels[Lv])
  rw [hfl] at hg hsorted
  rw [List.map_cons] at hsorted
  rcases List.mem_cons.1 hg with heq | hmem
  · have : g = fid := congrArg Prod.fst heq
    rw [this]
  · exact (List.sorted_cons.1 hsorted).1 g
      (List.mem_map.2 ⟨(g, gm), hmem, rfl⟩)

/-- Witness for C4: two failing root nodes a, b in one level; under the
in-spawn-order schedule the reported failure is a, the least failing ID. -/
theorem C4_witness :
    ∃ Lv, ∃ hL : Lv < [["a", "b"]].length, ∃ resL failsL fid fmsg tl,
      failsL = (sortStrings [["a", "b"]][Lv]).filterMap (levelFail (New catC4).nodes resL)
      ∧ id failsL = (fid, fmsg) :: tl
      ∧ "node a failed: A" = failMsg fid fmsg
      ∧ fid ∈ [["a", "b"]][Lv]
      ∧ (∀ g gm, (g, gm) ∈ failsL → g ∈ [["a", "b"]][Lv] ∧ ∃ node2,
          findNode (New catC4).nodes g = some node2 ∧
            node2.Run (depMap resL node2.DependsOn) = .error gm)
      ∧ ((id : Sched) = id → ∀ g gm, (g, gm) ∈ failsL → fid ≤ g) :=
  C4_amended (New catC4) id (fun l => List.Perm.refl l) (by decide) rfl
    [["a", "b"]] (by rfl) "node a failed: A" (by rfl)

end GraphBuilder
